import Mathlib

set_option maxHeartbeats 1000000

/-!
Shallow embedding of `zip_unicode/time_utils.py` (functions
`parse_extra_fields`, `set_creation_time_windows`, `set_file_time`).

A Python `bytes` buffer is modelled as its length `n : ℕ` together with a
read function `f : ℕ → ℕ` giving the byte at each index (a concrete buffer
`bs : List ℕ` corresponds to `(bs.length, fun i => bs.getD i 0)`).  Python
floats are modelled as exact rationals `ℚ`; Python `while` loops are
modelled by fuel-indexed structural recursion, and we prove below that the
fuel chosen in the top-level definitions is always sufficient.
-/

/-- A byte source: the byte value at each index. -/
abbrev ByteReader := ℕ → ℕ

/-- `struct.unpack_from` of a `w`-byte little-endian unsigned integer
starting at index `off`. -/
def readLEF (f : ByteReader) (off : ℕ) : ℕ → ℕ
  | 0 => 0
  | w + 1 => f off + 256 * readLEF f (off + 1) w

/-- Little-endian read from a concrete list buffer (out-of-range bytes
read as 0; the parser only performs in-range reads). -/
def lread (l : List ℕ) (off w : ℕ) : ℕ :=
  readLEF (fun i => l.getD i 0) off w

/-- The sparse timestamp dictionary built by `parse_extra_fields`:
at most the three keys `mtime`, `atime`, `ctime`, absence meaning
"not provided". -/
structure TimestampSet where
  mtime : Option ℚ := none
  atime : Option ℚ := none
  ctime : Option ℚ := none
deriving DecidableEq

/-- Lines 51-54: convert a Windows FILETIME (100ns ticks since 1601-01-01)
to Unix epoch seconds: `(ft - 116444736000000000) / 10_000_000`. -/
def filetimeToUnix (ft : ℤ) : ℚ :=
  ((ft : ℚ) - 116444736000000000) / 10000000

/-- Lines 39-56: the NTFS sub-attribute scan (`while tag1_offset < len(data)`)
over the record payload, which occupies indices `dstart ≤ i < dstart + dlen`
of the buffer.  `off` is `tag1_offset` (relative to the payload). -/
def ntfsLoop (f : ByteReader) (dstart dlen : ℕ) (fuel off : ℕ)
    (ts : TimestampSet) : TimestampSet :=
  match fuel with
  | 0 => ts
  | fuel + 1 =>
    if off < dlen then
      if dlen < off + 4 then ts
      else
        let tag1 := readLEF f (dstart + off) 2
        let size1 := readLEF f (dstart + off + 2) 2
        if tag1 = 0x0001 then
          if 24 ≤ size1 ∧ off + 4 + 24 ≤ dlen then
            let m := readLEF f (dstart + off + 4) 8
            let a := readLEF f (dstart + off + 4 + 8) 8
            let c := readLEF f (dstart + off + 4 + 16) 8
            { ts with
                ctime := some (filetimeToUnix c)
                mtime := some (filetimeToUnix m)
                atime := some (filetimeToUnix a) }
          else ts
        else ntfsLoop f dstart dlen fuel (off + 4 + size1) ts
    else ts

/-- Lines 34-56: the NTFS (header id `0x000a`) branch: requires a payload of
at least 32 bytes, then scans sub-attributes starting at `tag1_offset = 4`. -/
def applyNTFS (f : ByteReader) (dstart dlen : ℕ) (ts : TimestampSet) :
    TimestampSet :=
  if 32 ≤ dlen then ntfsLoop f dstart dlen dlen 4 ts else ts

/-- Lines 59-77: the extended-timestamp (header id `0x5455`) branch: a flag
byte followed by the flagged 4-byte fields, read (unsigned, `'<I'`) in the
order ctime (bit 2), mtime (bit 0), atime (bit 1). -/
def applyExtended (f : ByteReader) (dstart dlen : ℕ) (ts : TimestampSet) :
    TimestampSet :=
  if 1 ≤ dlen then
    let flags := f dstart
    let p1 :=
      if flags &&& 4 ≠ 0 ∧ 1 + 4 ≤ dlen then
        ({ ts with ctime := some ((readLEF f (dstart + 1) 4 : ℕ) : ℚ) }, 1 + 4)
      else (ts, 1)
    let p2 :=
      if flags &&& 1 ≠ 0 ∧ p1.2 + 4 ≤ dlen then
        ({ p1.1 with mtime := some ((readLEF f (dstart + p1.2) 4 : ℕ) : ℚ) },
         p1.2 + 4)
      else p1
    if flags &&& 2 ≠ 0 ∧ p2.2 + 4 ≤ dlen then
      { p2.1 with atime := some ((readLEF f (dstart + p2.2) 4 : ℕ) : ℚ) }
    else p2.1
  else ts

/-- Lines 20-82: the outer record walk (`while offset < len(extra_bytes)`).
Each iteration reads a 4-byte header `(header_id, data_size)`, checks that
the declared payload fits, dispatches on the header id, and advances past
the payload. -/
def parseLoop (n : ℕ) (f : ByteReader) (fuel off : ℕ) (ts : TimestampSet) :
    TimestampSet :=
  match fuel with
  | 0 => ts
  | fuel + 1 =>
    if off < n then
      if n < off + 4 then ts
      else
        let header_id := readLEF f off 2
        let data_size := readLEF f (off + 2) 2
        if n < off + 4 + data_size then ts
        else
          let ts' :=
            if header_id = 0x000a then applyNTFS f (off + 4) data_size ts
            else if header_id = 0x5455 then applyExtended f (off + 4) data_size ts
            else ts
          parseLoop n f fuel (off + 4 + data_size) ts'
    else ts

/-- `parse_extra_fields` on a byte source of length `n` (fuel `n` suffices:
each iteration advances the offset by at least 4). -/
def parseExtraF (n : ℕ) (f : ByteReader) (ts : TimestampSet) : TimestampSet :=
  parseLoop n f n 0 ts

/-- Lines 13-82: `parse_extra_fields` on a concrete buffer. -/
def parse_extra_fields (bs : List ℕ) : TimestampSet :=
  parseExtraF bs.length (fun i => bs.getD i 0) {}

/-- The record walk viewed as the list of records it visits: each entry is
`(header_id, payload start index, payload length)`. -/
def recordsLoop (n : ℕ) (f : ByteReader) (fuel off : ℕ) : List (ℕ × ℕ × ℕ) :=
  match fuel with
  | 0 => []
  | fuel + 1 =>
    if off < n then
      if n < off + 4 then []
      else
        let header_id := readLEF f off 2
        let data_size := readLEF f (off + 2) 2
        if n < off + 4 + data_size then []
        else (header_id, off + 4, data_size) :: recordsLoop n f fuel (off + 4 + data_size)
    else []

/-- The records visited when parsing a concrete buffer. -/
def records (bs : List ℕ) : List (ℕ × ℕ × ℕ) :=
  recordsLoop bs.length (fun i => bs.getD i 0) bs.length 0

/-- The per-record dispatch of the walk (lines 33-80). -/
def applyRecord (f : ByteReader) (ts : TimestampSet) (r : ℕ × ℕ × ℕ) :
    TimestampSet :=
  if r.1 = 0x000a then applyNTFS f r.2.1 r.2.2 ts
  else if r.1 = 0x5455 then applyExtended f r.2.1 r.2.2 ts
  else ts

/-- Line 80: the header ids reported to the logger, one per walked record
whose header id is neither `0x000a` nor `0x5455`. -/
def parseWarnings (bs : List ℕ) : List ℕ :=
  (records bs).foldl
    (fun acc r =>
      if r.1 = 0x000a then acc
      else if r.1 = 0x5455 then acc
      else acc ++ [r.1]) []

/-- The fully populated timestamp triple produced by the resolver. -/
structure Resolved where
  mtime : ℚ
  atime : ℚ
  ctime : ℚ
deriving DecidableEq

/-- Lines 130-141 of `set_file_time`: initialize all three outputs to the
legacy-derived epoch value `base` (`datetime(*zip_info.date_time).timestamp()`),
then, when the extra bytes are non-empty, let each field present in the
parser's output override the corresponding output. -/
def resolve (base : ℚ) (extra : List ℕ) : Resolved :=
  let r : Resolved := ⟨base, base, base⟩
  if extra ≠ [] then
    let ts := parse_extra_fields extra
    let r := match ts.mtime with | some v => { r with mtime := v } | none => r
    let r := match ts.atime with | some v => { r with atime := v } | none => r
    match ts.ctime with | some v => { r with ctime := v } | none => r
  else r

/-- Python `int()` applied to a rational: truncation toward zero. -/
def pyInt (q : ℚ) : ℤ :=
  if 0 ≤ q then ⌊q⌋ else ⌈q⌉

/-- Line 95 of `set_creation_time_windows`: convert Unix epoch seconds to a
Windows FILETIME: `int(timestamp * 10000000 + 116444736000000000)`. -/
def unixToFiletime (t : ℚ) : ℤ :=
  pyInt (t * 10000000 + 116444736000000000)

/-- The body of `set_file_time` (lines 129-147) with its fallible
collaborators abstracted: `legacy` models `datetime(*date_time).timestamp()`,
`utime` models `os.utime(path, (atime, mtime))`, and `setCreate` models
`set_creation_time_windows(path, ctime)`; each returns `Except` to model a
possibly raised exception. -/
def set_file_time_body (legacy : Except String ℚ)
    (utime : ℚ → ℚ → Except String Unit)
    (setCreate : ℚ → Except String Unit)
    (isWindows : Bool) (extra : List ℕ) : Except String Unit := do
  let base ← legacy
  let r := resolve base extra
  _ ← utime r.atime r.mtime
  if isWindows then setCreate r.ctime else pure ()

/-- Lines 128-150: `set_file_time` wraps its whole body in
`try ... except Exception`, turning any raised exception into a logged
warning naming the path and the cause, and returning normally.  The result
is the logged warning, if any. -/
def set_file_time_model (path : String) (legacy : Except String ℚ)
    (utime : ℚ → ℚ → Except String Unit)
    (setCreate : ℚ → Except String Unit)
    (isWindows : Bool) (extra : List ℕ) : Option String :=
  match set_file_time_body legacy utime setCreate isWindows extra with
  | .ok _ => none
  | .error e => some ("Could not set time for " ++ path ++ ": " ++ e)

/-- Little-endian encoder: `w` bytes of the value `v`. -/
def encLE : ℕ → ℕ → List ℕ
  | 0, _ => []
  | w + 1, v => v % 256 :: encLE w (v / 256)

/-- An encoded extra-field record: 2-byte header id, 2-byte payload length,
then the payload. -/
def encRecord (h : ℕ) (d : List ℕ) : List ℕ :=
  encLE 2 h ++ encLE 2 d.length ++ d

/-- A concatenated sequence of encoded records. -/
def encRecords : List (ℕ × List ℕ) → List ℕ
  | [] => []
  | (h, d) :: rs => encRecord h d ++ encRecords rs

/-- An encoded NTFS sub-attribute with declared size `s` followed by the
bytes `d` (in a well-formed block `s = d.length`). -/
def encSub (t s : ℕ) (d : List ℕ) : List ℕ :=
  encLE 2 t ++ encLE 2 s ++ d

/-- A concatenated sequence of well-formed NTFS sub-attributes (declared
size equal to actual payload length). -/
def encSubs : List (ℕ × List ℕ) → List ℕ
  | [] => []
  | (t, d) :: ss => encSub t d.length d ++ encSubs ss

/-! Basic unfolding lemmas for the fuel-indexed loops. -/

theorem ntfsLoop_zero (f : ByteReader) (ds dlen off : ℕ) (ts : TimestampSet) :
    ntfsLoop f ds dlen 0 off ts = ts := rfl

theorem ntfsLoop_succ (f : ByteReader) (ds dlen fuel off : ℕ) (ts : TimestampSet) :
    ntfsLoop f ds dlen (fuel + 1) off ts =
      if off < dlen then
        if dlen < off + 4 then ts
        else
          if readLEF f (ds + off) 2 = 0x0001 then
            if 24 ≤ readLEF f (ds + off + 2) 2 ∧ off + 4 + 24 ≤ dlen then
              { ts with
                  ctime := some (filetimeToUnix (readLEF f (ds + off + 4 + 16) 8))
                  mtime := some (filetimeToUnix (readLEF f (ds + off + 4) 8))
                  atime := some (filetimeToUnix (readLEF f (ds + off + 4 + 8) 8)) }
            else ts
          else ntfsLoop f ds dlen fuel (off + 4 + readLEF f (ds + off + 2) 2) ts
      else ts := rfl

theorem parseLoop_zero (n : ℕ) (f : ByteReader) (off : ℕ) (ts : TimestampSet) :
    parseLoop n f 0 off ts = ts := rfl

theorem parseLoop_succ (n : ℕ) (f : ByteReader) (fuel off : ℕ) (ts : TimestampSet) :
    parseLoop n f (fuel + 1) off ts =
      if off < n then
        if n < off + 4 then ts
        else
          if n < off + 4 + readLEF f (off + 2) 2 then ts
          else
            parseLoop n f fuel (off + 4 + readLEF f (off + 2) 2)
              (if readLEF f off 2 = 0x000a then
                applyNTFS f (off + 4) (readLEF f (off + 2) 2) ts
              else if readLEF f off 2 = 0x5455 then
                applyExtended f (off + 4) (readLEF f (off + 2) 2) ts
              else ts)
      else ts := rfl

theorem recordsLoop_zero (n : ℕ) (f : ByteReader) (off : ℕ) :
    recordsLoop n f 0 off = [] := rfl

theorem recordsLoop_succ (n : ℕ) (f : ByteReader) (fuel off : ℕ) :
    recordsLoop n f (fuel + 1) off =
      if off < n then
        if n < off + 4 then []
        else
          if n < off + 4 + readLEF f (off + 2) 2 then []
          else
            (readLEF f off 2, off + 4, readLEF f (off + 2) 2) ::
              recordsLoop n f fuel (off + 4 + readLEF f (off + 2) 2)
      else [] := rfl

/-! Fuel sufficiency: each loop iteration advances its offset by at least 4,
so any fuel of at least the buffer length computes the loop's limit. -/

theorem ntfsLoop_fuel_succ (f : ByteReader) (ds dlen : ℕ) :
    ∀ fuel off ts, dlen ≤ off + fuel →
      ntfsLoop f ds dlen (fuel + 1) off ts = ntfsLoop f ds dlen fuel off ts := by
  intro fuel
  induction fuel with
  | zero =>
    intro off ts h
    rw [ntfsLoop_succ, ntfsLoop_zero, if_neg (by omega)]
    rfl
  | succ fuel ih =>
    intro off ts h
    conv_lhs => rw [ntfsLoop_succ]
    conv_rhs => rw [ntfsLoop_succ]
    by_cases h1 : off < dlen
    · by_cases h2 : dlen < off + 4
      · simp only [if_pos h1, if_pos h2]
      · by_cases h3 : readLEF f (ds + off) 2 = 0x0001
        · simp only [if_pos h1, if_neg h2, if_pos h3]
        · simp only [if_pos h1, if_neg h2, if_neg h3]
          exact ih (off + 4 + readLEF f (ds + off + 2) 2) ts (by omega)
    · simp only [if_neg h1]

theorem ntfsLoop_fuel_add (f : ByteReader) (ds dlen : ℕ) :
    ∀ k fuel off ts, dlen ≤ off + fuel →
      ntfsLoop f ds dlen (fuel + k) off ts = ntfsLoop f ds dlen fuel off ts := by
  intro k
  induction k with
  | zero => intro fuel off ts _; rfl
  | succ k ih =>
    intro fuel off ts h
    rw [show fuel + (k + 1) = fuel + k + 1 by omega,
      ntfsLoop_fuel_succ f ds dlen (fuel + k) off ts (by omega), ih fuel off ts h]

theorem parseLoop_fuel_succ (n : ℕ) (f : ByteReader) :
    ∀ fuel off ts, n ≤ off + fuel →
      parseLoop n f (fuel + 1) off ts = parseLoop n f fuel off ts := by
  intro fuel
  induction fuel with
  | zero =>
    intro off ts h
    rw [parseLoop_succ, parseLoop_zero, if_neg (by omega)]
    rfl
  | succ fuel ih =>
    intro off ts h
    conv_lhs => rw [parseLoop_succ]
    conv_rhs => rw [parseLoop_succ]
    by_cases h1 : off < n
    · by_cases h2 : n < off + 4
      · simp only [if_pos h1, if_pos h2]
      · by_cases h3 : n < off + 4 + readLEF f (off + 2) 2
        · simp only [if_pos h1, if_neg h2, if_pos h3]
        · simp only [if_pos h1, if_neg h2, if_neg h3]
          exact ih (off + 4 + readLEF f (off + 2) 2) _ (by omega)
    · simp only [if_neg h1]

theorem parseLoop_fuel_add (n : ℕ) (f : ByteReader) :
    ∀ k fuel off ts, n ≤ off + fuel →
      parseLoop n f (fuel + k) off ts = parseLoop n f fuel off ts := by
  intro k
  induction k with
  | zero => intro fuel off ts _; rfl
  | succ k ih =>
    intro fuel off ts h
    rw [show fuel + (k + 1) = fuel + k + 1 by omega,
      parseLoop_fuel_succ n f (fuel + k) off ts (by omega), ih fuel off ts h]

theorem recordsLoop_fuel_succ (n : ℕ) (f : ByteReader) :
    ∀ fuel off, n ≤ off + fuel →
      recordsLoop n f (fuel + 1) off = recordsLoop n f fuel off := by
  intro fuel
  induction fuel with
  | zero =>
    intro off h
    rw [recordsLoop_succ, recordsLoop_zero, if_neg (by omega)]
    rfl
  | succ fuel ih =>
    intro off h
    conv_lhs => rw [recordsLoop_succ]
    conv_rhs => rw [recordsLoop_succ]
    by_cases h1 : off < n
    · by_cases h2 : n < off + 4
      · simp only [if_pos h1, if_pos h2]
      · by_cases h3 : n < off + 4 + readLEF f (off + 2) 2
        · simp only [if_pos h1, if_neg h2, if_pos h3]
        · simp only [if_pos h1, if_neg h2, if_neg h3]
          rw [ih (off + 4 + readLEF f (off + 2) 2) (by omega)]
    · simp only [if_neg h1]

theorem recordsLoop_fuel_add (n : ℕ) (f : ByteReader) :
    ∀ k fuel off, n ≤ off + fuel →
      recordsLoop n f (fuel + k) off = recordsLoop n f fuel off := by
  intro k
  induction k with
  | zero => intro fuel off _; rfl
  | succ k ih =>
    intro fuel off h
    rw [show fuel + (k + 1) = fuel + k + 1 by omega,
      recordsLoop_fuel_succ n f (fuel + k) off (by omega), ih fuel off h]

/-! Congruence: every component reads only bytes inside its designated
window, so two byte sources agreeing there give identical results. -/

theorem readLEF_congr (f g : ByteReader) :
    ∀ w off, (∀ i, off ≤ i → i < off + w → f i = g i) →
      readLEF f off w = readLEF g off w := by
  intro w
  induction w with
  | zero => intro off _; rfl
  | succ w ih =>
    intro off h
    simp only [readLEF]
    rw [h off (by omega) (by omega),
      ih (off + 1) (fun i h1 h2 => h i (by omega) (by omega))]

theorem ntfsLoop_congr (f g : ByteReader) (ds dlen : ℕ)
    (hfg : ∀ i, ds ≤ i → i < ds + dlen → f i = g i) :
    ∀ fuel off ts, ntfsLoop f ds dlen fuel off ts = ntfsLoop g ds dlen fuel off ts := by
  intro fuel
  induction fuel with
  | zero => intro off ts; rfl
  | succ fuel ih =>
    intro off ts
    rw [ntfsLoop_succ, ntfsLoop_succ]
    by_cases h1 : off < dlen
    · by_cases h2 : dlen < off + 4
      · simp only [if_pos h1, if_pos h2]
      · have e2 : readLEF f (ds + off) 2 = readLEF g (ds + off) 2 :=
          readLEF_congr f g 2 (ds + off)
            (fun i hi1 hi2 => hfg i (by omega) (by omega))
        have e3 : readLEF f (ds + off + 2) 2 = readLEF g (ds + off + 2) 2 :=
          readLEF_congr f g 2 (ds + off + 2)
            (fun i hi1 hi2 => hfg i (by omega) (by omega))
        rw [e2, e3]
        by_cases h3 : readLEF g (ds + off) 2 = 0x0001
        · by_cases h4 : 24 ≤ readLEF g (ds + off + 2) 2 ∧ off + 4 + 24 ≤ dlen
          · have em : readLEF f (ds + off + 4) 8 = readLEF g (ds + off + 4) 8 :=
              readLEF_congr f g 8 (ds + off + 4)
                (fun i hi1 hi2 => hfg i (by omega) (by omega))
            have ea : readLEF f (ds + off + 4 + 8) 8 = readLEF g (ds + off + 4 + 8) 8 :=
              readLEF_congr f g 8 (ds + off + 4 + 8)
                (fun i hi1 hi2 => hfg i (by omega) (by omega))
            have ec : readLEF f (ds + off + 4 + 16) 8 = readLEF g (ds + off + 4 + 16) 8 :=
              readLEF_congr f g 8 (ds + off + 4 + 16)
                (fun i hi1 hi2 => hfg i (by omega) (by omega))
            simp only [if_pos h1, if_neg h2, if_pos h3, if_pos h4, em, ea, ec]
          · simp only [if_pos h1, if_neg h2, if_pos h3, if_neg h4]
        · simp only [if_pos h1, if_neg h2, if_neg h3]
          exact ih (off + 4 + readLEF g (ds + off + 2) 2) ts
    · simp only [if_neg h1]

theorem applyNTFS_congr (f g : ByteReader) (ds dlen : ℕ)
    (hfg : ∀ i, ds ≤ i → i < ds + dlen → f i = g i) (ts : TimestampSet) :
    applyNTFS f ds dlen ts = applyNTFS g ds dlen ts := by
  unfold applyNTFS
  by_cases h : 32 ≤ dlen
  · simp only [if_pos h]
    exact ntfsLoop_congr f g ds dlen hfg dlen 4 ts
  · simp only [if_neg h]

theorem applyExtended_congr (f g : ByteReader) (ds dlen : ℕ)
    (hfg : ∀ i, ds ≤ i → i < ds + dlen → f i = g i) (ts : TimestampSet) :
    applyExtended f ds dlen ts = applyExtended g ds dlen ts := by
  simp only [applyExtended]
  by_cases h1 : 1 ≤ dlen
  · have e0 : f ds = g ds := hfg ds (by omega) (by omega)
    simp only [if_pos h1, e0]
    by_cases hc : g ds &&& 4 ≠ 0 ∧ 1 + 4 ≤ dlen
    · have ec : readLEF f (ds + 1) 4 = readLEF g (ds + 1) 4 :=
        readLEF_congr f g 4 (ds + 1)
          (fun i hi1 hi2 => hfg i (by omega) (by omega))
      simp only [if_pos hc, ec]
      by_cases hm : g ds &&& 1 ≠ 0 ∧ 1 + 4 + 4 ≤ dlen
      · have em : readLEF f (ds + (1 + 4)) 4 = readLEF g (ds + (1 + 4)) 4 :=
          readLEF_congr f g 4 (ds + (1 + 4))
            (fun i hi1 hi2 => hfg i (by omega) (by omega))
        simp only [if_pos hm, em]
        by_cases ha : g ds &&& 2 ≠ 0 ∧ 1 + 4 + 4 + 4 ≤ dlen
        · have ea : readLEF f (ds + (1 + 4 + 4)) 4 = readLEF g (ds + (1 + 4 + 4)) 4 :=
            readLEF_congr f g 4 (ds + (1 + 4 + 4))
              (fun i hi1 hi2 => hfg i (by omega) (by omega))
          simp only [if_pos ha, ea]
        · simp only [if_neg ha]
      · simp only [if_neg hm]
        by_cases ha : g ds &&& 2 ≠ 0 ∧ 1 + 4 + 4 ≤ dlen
        · have ea : readLEF f (ds + (1 + 4)) 4 = readLEF g (ds + (1 + 4)) 4 :=
            readLEF_congr f g 4 (ds + (1 + 4))
              (fun i hi1 hi2 => hfg i (by omega) (by omega))
          simp only [if_pos ha, ea]
        · simp only [if_neg ha]
    · simp only [if_neg hc]
      by_cases hm : g ds &&& 1 ≠ 0 ∧ 1 + 4 ≤ dlen
      · have em : readLEF f (ds + 1) 4 = readLEF g (ds + 1) 4 :=
          readLEF_congr f g 4 (ds + 1)
            (fun i hi1 hi2 => hfg i (by omega) (by omega))
        simp only [if_pos hm, em]
        by_cases ha : g ds &&& 2 ≠ 0 ∧ 1 + 4 + 4 ≤ dlen
        · have ea : readLEF f (ds + (1 + 4)) 4 = readLEF g (ds + (1 + 4)) 4 :=
            readLEF_congr f g 4 (ds + (1 + 4))
              (fun i hi1 hi2 => hfg i (by omega) (by omega))
          simp only [if_pos ha, ea]
        · simp only [if_neg ha]
      · simp only [if_neg hm]
        by_cases ha : g ds &&& 2 ≠ 0 ∧ 1 + 4 ≤ dlen
        · have ea : readLEF f (ds + 1) 4 = readLEF g (ds + 1) 4 :=
            readLEF_congr f g 4 (ds + 1)
              (fun i hi1 hi2 => hfg i (by omega) (by omega))
          simp only [if_pos ha, ea]
        · simp only [if_neg ha]
  · simp only [if_neg h1]

theorem parseLoop_congr (n : ℕ) (f g : ByteReader)
    (hfg : ∀ i, i < n → f i = g i) :
    ∀ fuel off ts, parseLoop n f fuel off ts = parseLoop n g fuel off ts := by
  intro fuel
  induction fuel with
  | zero => intro off ts; rfl
  | succ fuel ih =>
    intro off ts
    rw [parseLoop_succ, parseLoop_succ]
    by_cases h1 : off < n
    · by_cases h2 : n < off + 4
      · simp only [if_pos h1, if_pos h2]
      · have eh : readLEF f off 2 = readLEF g off 2 :=
          readLEF_congr f g 2 off (fun i hi1 hi2 => hfg i (by omega))
        have es : readLEF f (off + 2) 2 = readLEF g (off + 2) 2 :=
          readLEF_congr f g 2 (off + 2) (fun i hi1 hi2 => hfg i (by omega))
        rw [eh, es]
        by_cases h3 : n < off + 4 + readLEF g (off + 2) 2
        · simp only [if_pos h1, if_neg h2, if_pos h3]
        · have edata : ∀ ts',
              (if readLEF g off 2 = 0x000a then
                applyNTFS f (off + 4) (readLEF g (off + 2) 2) ts'
              else if readLEF g off 2 = 0x5455 then
                applyExtended f (off + 4) (readLEF g (off + 2) 2) ts'
              else ts') =
              (if readLEF g off 2 = 0x000a then
                applyNTFS g (off + 4) (readLEF g (off + 2) 2) ts'
              else if readLEF g off 2 = 0x5455 then
                applyExtended g (off + 4) (readLEF g (off + 2) 2) ts'
              else ts') := by
            intro ts'
            by_cases hh : readLEF g off 2 = 0x000a
            · simp only [if_pos hh]
              exact applyNTFS_congr f g (off + 4) (readLEF g (off + 2) 2)
                (fun i hi1 hi2 => hfg i (by omega)) ts'
            · by_cases hh' : readLEF g off 2 = 0x5455
              · simp only [if_neg hh, if_pos hh']
                exact applyExtended_congr f g (off + 4) (readLEF g (off + 2) 2)
                  (fun i hi1 hi2 => hfg i (by omega)) ts'
              · simp only [if_neg hh, if_neg hh']
          simp only [if_pos h1, if_neg h2, if_neg h3, edata]
          exact ih (off + 4 + readLEF g (off + 2) 2) _
    · simp only [if_neg h1]

theorem recordsLoop_congr (n : ℕ) (f g : ByteReader)
    (hfg : ∀ i, i < n → f i = g i) :
    ∀ fuel off, recordsLoop n f fuel off = recordsLoop n g fuel off := by
  intro fuel
  induction fuel with
  | zero => intro off; rfl
  | succ fuel ih =>
    intro off
    rw [recordsLoop_succ, recordsLoop_succ]
    by_cases h1 : off < n
    · by_cases h2 : n < off + 4
      · simp only [if_pos h1, if_pos h2]
      · have eh : readLEF f off 2 = readLEF g off 2 :=
          readLEF_congr f g 2 off (fun i hi1 hi2 => hfg i (by omega))
        have es : readLEF f (off + 2) 2 = readLEF g (off + 2) 2 :=
          readLEF_congr f g 2 (off + 2) (fun i hi1 hi2 => hfg i (by omega))
        rw [eh, es]
        by_cases h3 : n < off + 4 + readLEF g (off + 2) 2
        · simp only [if_pos h1, if_neg h2, if_pos h3]
        · simp only [if_pos h1, if_neg h2, if_neg h3]
          rw [ih (off + 4 + readLEF g (off + 2) 2)]
    · simp only [if_neg h1]

/-! Shifting the byte source: reading through `fun i => f (k + i)` at offset
`off` is reading `f` at `k + off`. -/

theorem readLEF_shift (f : ByteReader) (k : ℕ) :
    ∀ w off, readLEF (fun i => f (k + i)) off w = readLEF f (k + off) w := by
  intro w
  induction w with
  | zero => intro off; rfl
  | succ w ih =>
    intro off
    simp only [readLEF]
    rw [ih (off + 1), show k + (off + 1) = k + off + 1 by omega]

theorem ntfsLoop_shift (f : ByteReader) (k ds dlen : ℕ) :
    ∀ fuel off ts,
      ntfsLoop (fun i => f (k + i)) ds dlen fuel off ts =
        ntfsLoop f (k + ds) dlen fuel off ts := by
  intro fuel
  induction fuel with
  | zero => intro off ts; rfl
  | succ fuel ih =>
    intro off ts
    rw [ntfsLoop_succ, ntfsLoop_succ]
    simp only [readLEF_shift, ← Nat.add_assoc]
    by_cases h1 : off < dlen
    · by_cases h2 : dlen < off + 4
      · simp only [if_pos h1, if_pos h2]
      · by_cases h3 : readLEF f (k + ds + off) 2 = 0x0001
        · simp only [if_pos h1, if_neg h2, if_pos h3]
        · simp only [if_pos h1, if_neg h2, if_neg h3]
          exact ih (off + 4 + readLEF f (k + ds + off + 2) 2) ts
    · simp only [if_neg h1]

theorem applyNTFS_shift (f : ByteReader) (k ds dlen : ℕ) (ts : TimestampSet) :
    applyNTFS (fun i => f (k + i)) ds dlen ts = applyNTFS f (k + ds) dlen ts := by
  unfold applyNTFS
  by_cases h : 32 ≤ dlen
  · simp only [if_pos h]
    exact ntfsLoop_shift f k ds dlen dlen 4 ts
  · simp only [if_neg h]

theorem applyExtended_shift (f : ByteReader) (k ds dlen : ℕ) (ts : TimestampSet) :
    applyExtended (fun i => f (k + i)) ds dlen ts = applyExtended f (k + ds) dlen ts := by
  simp only [applyExtended, readLEF_shift, ← Nat.add_assoc]

theorem parseLoop_shift (n k : ℕ) (f : ByteReader) :
    ∀ fuel off ts,
      parseLoop n f fuel (k + off) ts =
        parseLoop (n - k) (fun i => f (k + i)) fuel off ts := by
  intro fuel
  induction fuel with
  | zero => intro off ts; rfl
  | succ fuel ih =>
    intro off ts
    rw [parseLoop_succ, parseLoop_succ]
    simp only [readLEF_shift, applyNTFS_shift, applyExtended_shift, ← Nat.add_assoc]
    by_cases h1 : off < n - k
    · have h1' : k + off < n := by omega
      simp only [if_pos h1, if_pos h1']
      by_cases h2 : n - k < off + 4
      · have h2' : n < k + off + 4 := by omega
        simp only [if_pos h2, if_pos h2']
      · have h2' : ¬ n < k + off + 4 := by omega
        simp only [if_neg h2, if_neg h2']
        by_cases h3 : n - k < off + 4 + readLEF f (k + off + 2) 2
        · have h3' : n < k + off + 4 + readLEF f (k + off + 2) 2 := by omega
          simp only [if_pos h3, if_pos h3']
        · have h3' : ¬ n < k + off + 4 + readLEF f (k + off + 2) 2 := by omega
          simp only [if_neg h3, if_neg h3']
          rw [show k + off + 4 + readLEF f (k + off + 2) 2 =
                k + (off + 4 + readLEF f (k + off + 2) 2) by omega]
          exact ih _ _
    · have h1' : ¬ k + off < n := by omega
      simp only [if_neg h1, if_neg h1']

theorem recordsLoop_shift (n k : ℕ) (f : ByteReader) :
    ∀ fuel off,
      recordsLoop n f fuel (k + off) =
        (recordsLoop (n - k) (fun i => f (k + i)) fuel off).map
          (fun r => (r.1, k + r.2.1, r.2.2)) := by
  intro fuel
  induction fuel with
  | zero => intro off; rfl
  | succ fuel ih =>
    intro off
    rw [recordsLoop_succ, recordsLoop_succ]
    simp only [readLEF_shift, ← Nat.add_assoc]
    by_cases h1 : off < n - k
    · have h1' : k + off < n := by omega
      simp only [if_pos h1, if_pos h1']
      by_cases h2 : n - k < off + 4
      · have h2' : n < k + off + 4 := by omega
        simp only [if_pos h2, if_pos h2', List.map_nil]
      · have h2' : ¬ n < k + off + 4 := by omega
        simp only [if_neg h2, if_neg h2']
        by_cases h3 : n - k < off + 4 + readLEF f (k + off + 2) 2
        · have h3' : n < k + off + 4 + readLEF f (k + off + 2) 2 := by omega
          simp only [if_pos h3, if_pos h3', List.map_nil]
        · have h3' : ¬ n < k + off + 4 + readLEF f (k + off + 2) 2 := by omega
          simp only [if_neg h3, if_neg h3', List.map_cons, ← Nat.add_assoc]
          rw [show k + off + 4 + readLEF f (k + off + 2) 2 =
                k + (off + 4 + readLEF f (k + off + 2) 2) by omega]
          rw [ih (off + 4 + readLEF f (k + off + 2) 2)]
    · have h1' : ¬ k + off < n := by omega
      simp only [if_neg h1, if_neg h1', List.map_nil]

/-- The parsing loop is the fold of the per-record dispatch over the list of
visited records. -/
theorem parseLoop_eq_foldl (n : ℕ) (f : ByteReader) :
    ∀ fuel off ts,
      parseLoop n f fuel off ts =
        (recordsLoop n f fuel off).foldl (applyRecord f) ts := by
  intro fuel
  induction fuel with
  | zero => intro off ts; rfl
  | succ fuel ih =>
    intro off ts
    rw [parseLoop_succ, recordsLoop_succ]
    by_cases h1 : off < n
    · by_cases h2 : n < off + 4
      · simp only [if_pos h1, if_pos h2, List.foldl_nil]
      · by_cases h3 : n < off + 4 + readLEF f (off + 2) 2
        · simp only [if_pos h1, if_neg h2, if_pos h3, List.foldl_nil]
        · simp only [if_pos h1, if_neg h2, if_neg h3, List.foldl_cons]
          rw [ih]
          rfl
    · simp only [if_neg h1, List.foldl_nil]

/-! Each record's contribution to the timestamp dictionary does not depend
on the dictionary built so far: applying a record is merging its own
contribution (computed from an empty dictionary) over the accumulator. -/

/-- The empty timestamp dictionary (`timestamps = {}`, line 17). -/
def emptyTS : TimestampSet := ⟨none, none, none⟩

/-- First-wins choice on optional values. -/
def oFirst (a b : Option ℚ) : Option ℚ :=
  match a with
  | some v => some v
  | none => b

/-- Merge an update over a base dictionary: fields present in the update
win. -/
def mergeTS (base upd : TimestampSet) : TimestampSet :=
  ⟨oFirst upd.mtime base.mtime, oFirst upd.atime base.atime,
   oFirst upd.ctime base.ctime⟩

theorem oFirst_none_left (b : Option ℚ) : oFirst none b = b := rfl

theorem oFirst_assoc (a b c : Option ℚ) :
    oFirst (oFirst a b) c = oFirst a (oFirst b c) := by
  cases a <;> rfl

theorem mergeTS_empty_right (ts : TimestampSet) : mergeTS ts emptyTS = ts := rfl

theorem ntfsLoop_merge (f : ByteReader) (ds dlen : ℕ) :
    ∀ fuel off ts,
      ntfsLoop f ds dlen fuel off ts =
        mergeTS ts (ntfsLoop f ds dlen fuel off emptyTS) := by
  intro fuel
  induction fuel with
  | zero => intro off ts; rfl
  | succ fuel ih =>
    intro off ts
    rw [ntfsLoop_succ, ntfsLoop_succ]
    by_cases h1 : off < dlen
    · by_cases h2 : dlen < off + 4
      · simp only [if_pos h1, if_pos h2, mergeTS_empty_right]
      · by_cases h3 : readLEF f (ds + off) 2 = 0x0001
        · by_cases h4 : 24 ≤ readLEF f (ds + off + 2) 2 ∧ off + 4 + 24 ≤ dlen
          · simp only [if_pos h1, if_neg h2, if_pos h3, if_pos h4]
            rfl
          · simp only [if_pos h1, if_neg h2, if_pos h3, if_neg h4,
              mergeTS_empty_right]
        · simp only [if_pos h1, if_neg h2, if_neg h3]
          exact ih (off + 4 + readLEF f (ds + off + 2) 2) ts
    · simp only [if_neg h1, mergeTS_empty_right]

theorem applyNTFS_merge (f : ByteReader) (ds dlen : ℕ) (ts : TimestampSet) :
    applyNTFS f ds dlen ts = mergeTS ts (applyNTFS f ds dlen emptyTS) := by
  unfold applyNTFS
  by_cases h : 32 ≤ dlen
  · simp only [if_pos h]
    exact ntfsLoop_merge f ds dlen dlen 4 ts
  · simp only [if_neg h, mergeTS_empty_right]

theorem applyExtended_merge (f : ByteReader) (ds dlen : ℕ) (ts : TimestampSet) :
    applyExtended f ds dlen ts = mergeTS ts (applyExtended f ds dlen emptyTS) := by
  simp only [applyExtended]
  by_cases h1 : 1 ≤ dlen
  · simp only [if_pos h1]
    by_cases hc : f ds &&& 4 ≠ 0 ∧ 1 + 4 ≤ dlen
    · simp only [if_pos hc]
      by_cases hm : f ds &&& 1 ≠ 0 ∧ 1 + 4 + 4 ≤ dlen
      · simp only [if_pos hm]
        by_cases ha : f ds &&& 2 ≠ 0 ∧ 1 + 4 + 4 + 4 ≤ dlen
        · simp only [if_pos ha]; rfl
        · simp only [if_neg ha]; rfl
      · simp only [if_neg hm]
        by_cases ha : f ds &&& 2 ≠ 0 ∧ 1 + 4 + 4 ≤ dlen
        · simp only [if_pos ha]; rfl
        · simp only [if_neg ha]; rfl
    · simp only [if_neg hc]
      by_cases hm : f ds &&& 1 ≠ 0 ∧ 1 + 4 ≤ dlen
      · simp only [if_pos hm]
        by_cases ha : f ds &&& 2 ≠ 0 ∧ 1 + 4 + 4 ≤ dlen
        · simp only [if_pos ha]; rfl
        · simp only [if_neg ha]; rfl
      · simp only [if_neg hm]
        by_cases ha : f ds &&& 2 ≠ 0 ∧ 1 + 4 ≤ dlen
        · simp only [if_pos ha]; rfl
        · simp only [if_neg ha]; rfl
  · simp only [if_neg h1, mergeTS_empty_right]

theorem applyRecord_merge (f : ByteReader) (ts : TimestampSet) (r : ℕ × ℕ × ℕ) :
    applyRecord f ts r = mergeTS ts (applyRecord f emptyTS r) := by
  unfold applyRecord
  by_cases h1 : r.1 = 0x000a
  · simp only [if_pos h1]
    exact applyNTFS_merge f r.2.1 r.2.2 ts
  · by_cases h2 : r.1 = 0x5455
    · simp only [if_neg h1, if_pos h2]
      exact applyExtended_merge f r.2.1 r.2.2 ts
    · simp only [if_neg h1, if_neg h2, mergeTS_empty_right]

theorem applyRecord_mergeTS (f : ByteReader) (a b : TimestampSet) (r : ℕ × ℕ × ℕ) :
    applyRecord f (mergeTS a b) r = mergeTS a (applyRecord f b r) := by
  rw [applyRecord_merge f (mergeTS a b) r, applyRecord_merge f b r]
  simp only [mergeTS, oFirst_assoc]

theorem foldl_applyRecord_merge (f : ByteReader) :
    ∀ (l : List (ℕ × ℕ × ℕ)) (ts : TimestampSet),
      l.foldl (applyRecord f) ts =
        mergeTS ts (l.foldl (applyRecord f) emptyTS) := by
  intro l
  induction l with
  | nil => intro ts; exact (mergeTS_empty_right ts).symm
  | cons r l ih =>
    intro ts
    simp only [List.foldl_cons]
    rw [ih (applyRecord f ts r), ih (applyRecord f emptyTS r),
      applyRecord_merge f ts r]
    simp only [mergeTS, oFirst_assoc]

/-! Reading little-endian values out of concrete list buffers. -/

theorem encLE_length : ∀ w v, (encLE w v).length = w := by
  intro w
  induction w with
  | zero => intro v; rfl
  | succ w ih => intro v; simp [encLE, ih]

theorem lread_cons_succ (x : ℕ) (l : List ℕ) :
    ∀ w off, lread (x :: l) (off + 1) w = lread l off w := by
  intro w
  induction w with
  | zero => intro off; rfl
  | succ w ih =>
    intro off
    simp only [lread, readLEF, List.getD_cons_succ]
    have h := ih (off + 1)
    simp only [lread] at h
    rw [h]

theorem lread_append_right (a b : List ℕ) :
    ∀ w off, lread (a ++ b) (a.length + off) w = lread b off w := by
  intro w
  induction w with
  | zero => intro off; rfl
  | succ w ih =>
    intro off
    simp only [lread, readLEF]
    rw [List.getD_append_right a b 0 (a.length + off) (by omega),
      show a.length + off - a.length = off by omega,
      show a.length + off + 1 = a.length + (off + 1) by omega]
    have h := ih (off + 1)
    simp only [lread] at h
    rw [h]

theorem lread_append_left (a b : List ℕ) :
    ∀ w off, off + w ≤ a.length → lread (a ++ b) off w = lread a off w := by
  intro w
  induction w with
  | zero => intro off _; rfl
  | succ w ih =>
    intro off h
    simp only [lread, readLEF]
    rw [List.getD_append a b 0 off (by omega)]
    have h2 := ih (off + 1) (by omega)
    simp only [lread] at h2
    rw [h2]

theorem lread_encLE : ∀ w v, lread (encLE w v) 0 w = v % 256 ^ w := by
  intro w
  induction w with
  | zero => intro v; simp [lread, readLEF, Nat.mod_one]
  | succ w ih =>
    intro v
    show lread (v % 256 :: encLE w (v / 256)) 0 (w + 1) = v % 256 ^ (w + 1)
    simp only [lread, readLEF, List.getD_cons_zero]
    have h : lread (v % 256 :: encLE w (v / 256)) (0 + 1) w =
        lread (encLE w (v / 256)) 0 w := lread_cons_succ _ _ w 0
    have ih' := ih (v / 256)
    simp only [lread] at h ih'
    rw [h, ih']
    rw [show (256 : ℕ) ^ (w + 1) = 256 * 256 ^ w by ring, Nat.mod_mul]

theorem lread_encLE_of_lt (w v : ℕ) (hv : v < 256 ^ w) :
    lread (encLE w v) 0 w = v := by
  rw [lread_encLE, Nat.mod_eq_of_lt hv]

theorem getD_take (l : List ℕ) (k i : ℕ) (h : i < k) :
    (l.take k).getD i 0 = l.getD i 0 := by
  rw [List.getD_eq_getD_get?, List.getD_eq_getD_get?, List.get?_eq_getElem?,
    List.get?_eq_getElem?, List.getElem?_take_of_lt h]

/-! Parsing a buffer made of encoded records is the fold of the per-record
dispatch over the record payloads. -/

/-- Parsing continued from an already accumulated dictionary. -/
def parseFrom (bs : List ℕ) (ts : TimestampSet) : TimestampSet :=
  parseLoop bs.length (fun i => bs.getD i 0) bs.length 0 ts

/-- The dispatch of a single record, on its own payload. -/
def applyData (h : ℕ) (d : List ℕ) (ts : TimestampSet) : TimestampSet :=
  if h = 0x000a then applyNTFS (fun i => d.getD i 0) 0 d.length ts
  else if h = 0x5455 then applyExtended (fun i => d.getD i 0) 0 d.length ts
  else ts

theorem encRecord_length (h : ℕ) (d : List ℕ) :
    (encRecord h d).length = 4 + d.length := by
  simp [encRecord, encLE_length]
  omega

theorem parseFrom_cons (h : ℕ) (d rest : List ℕ) (ts : TimestampSet)
    (hh : h < 65536) (hd : d.length < 65536) :
    parseFrom (encRecord h d ++ rest) ts = parseFrom rest (applyData h d ts) := by
  have hsplit : encRecord h d ++ rest =
      encLE 2 h ++ (encLE 2 d.length ++ (d ++ rest)) := by
    simp [encRecord, List.append_assoc]
  have hlen : (encRecord h d ++ rest).length = 3 + d.length + rest.length + 1 := by
    simp [encRecord_length]
    omega
  have e1 : lread (encRecord h d ++ rest) 0 2 = h := by
    rw [hsplit, lread_append_left _ _ 2 0 (by simp [encLE_length])]
    exact lread_encLE_of_lt 2 h hh
  have e2 : lread (encRecord h d ++ rest) 2 2 = d.length := by
    have step := lread_append_right (encLE 2 h) (encLE 2 d.length ++ (d ++ rest)) 2 0
    rw [encLE_length] at step
    simp only [Nat.add_zero] at step
    rw [hsplit, step, lread_append_left _ _ 2 0 (by simp [encLE_length])]
    exact lread_encLE_of_lt 2 d.length hd
  have e3 : ∀ i, i < d.length →
      (encRecord h d ++ rest).getD (4 + i) 0 = d.getD i 0 := by
    intro i hi
    rw [show encRecord h d ++ rest = (encLE 2 h ++ encLE 2 d.length) ++ (d ++ rest) by
      simp [encRecord, List.append_assoc]]
    rw [List.getD_append_right _ _ 0 (4 + i) (by simp [encLE_length])]
    rw [show 4 + i - (encLE 2 h ++ encLE 2 d.length).length = i by
      simp [encLE_length]]
    exact List.getD_append _ _ 0 i hi
  have e4 : ∀ i, (encRecord h d ++ rest).getD (4 + d.length + i) 0 = rest.getD i 0 := by
    intro i
    rw [List.getD_append_right (encRecord h d) rest 0 (4 + d.length + i)
      (by rw [encRecord_length]; omega)]
    congr 1
    rw [encRecord_length]
    omega
  simp only [lread] at e1 e2
  show parseLoop (encRecord h d ++ rest).length
      (fun i => (encRecord h d ++ rest).getD i 0)
      (encRecord h d ++ rest).length 0 ts = parseFrom rest (applyData h d ts)
  rw [hlen, parseLoop_succ]
  rw [if_pos (by omega : 0 < 3 + d.length + rest.length + 1)]
  simp only [Nat.zero_add]
  rw [e2]
  rw [if_neg (by omega : ¬ 3 + d.length + rest.length + 1 < 0 + 4)]
  rw [if_neg (by omega : ¬ 3 + d.length + rest.length + 1 < 0 + 4 + d.length)]
  rw [e1]
  have edisp :
      (if h = 0x000a then
        applyNTFS (fun i => (encRecord h d ++ rest).getD i 0) (0 + 4) d.length ts
      else if h = 0x5455 then
        applyExtended (fun i => (encRecord h d ++ rest).getD i 0) (0 + 4) d.length ts
      else ts) = applyData h d ts := by
    unfold applyData
    by_cases c1 : h = 0x000a
    · simp only [if_pos c1, Nat.zero_add]
      have s1 := applyNTFS_shift (fun i => (encRecord h d ++ rest).getD i 0) 4 0
        d.length ts
      rw [show (4 : ℕ) + 0 = 4 from rfl] at s1
      rw [← s1]
      exact applyNTFS_congr _ _ 0 d.length
        (fun i hi1 hi2 => e3 i (by omega)) ts
    · by_cases c2 : h = 0x5455
      · simp only [if_neg c1, if_pos c2, Nat.zero_add]
        have s1 := applyExtended_shift (fun i => (encRecord h d ++ rest).getD i 0) 4 0
          d.length ts
        rw [show (4 : ℕ) + 0 = 4 from rfl] at s1
        rw [← s1]
        exact applyExtended_congr _ _ 0 d.length
          (fun i hi1 hi2 => e3 i (by omega)) ts
      · simp only [if_neg c1, if_neg c2]
  rw [edisp]
  rw [show (0 + 4 + d.length : ℕ) = (4 + d.length) + 0 by omega]
  rw [parseLoop_shift (3 + d.length + rest.length + 1) (4 + d.length)
    (fun i => (encRecord h d ++ rest).getD i 0) (3 + d.length + rest.length) 0
    (applyData h d ts)]
  rw [show 3 + d.length + rest.length + 1 - (4 + d.length) = rest.length by omega]
  rw [parseLoop_congr rest.length _ (fun i => rest.getD i 0)
    (fun i _ => e4 i) (3 + d.length + rest.length) 0 (applyData h d ts)]
  rw [show 3 + d.length + rest.length = rest.length + (3 + d.length) by omega]
  rw [parseLoop_fuel_add rest.length _ (3 + d.length) rest.length 0 _ (by omega)]
  rfl

theorem parseFrom_encRecords :
    ∀ (rs : List (ℕ × List ℕ)) (ts : TimestampSet),
      (∀ r ∈ rs, r.1 < 65536 ∧ r.2.length < 65536) →
      parseFrom (encRecords rs) ts =
        rs.foldl (fun acc r => applyData r.1 r.2 acc) ts := by
  intro rs
  induction rs with
  | nil => intro ts _; rfl
  | cons r rs ih =>
    intro ts hgood
    obtain ⟨h, d⟩ := r
    show parseFrom (encRecord h d ++ encRecords rs) ts = _
    rw [parseFrom_cons h d (encRecords rs) ts (hgood (h, d) (by simp)).1
      (hgood (h, d) (by simp)).2]
    rw [ih (applyData h d ts) (fun r hr => hgood r (by simp [hr]))]
    rfl

theorem parse_extra_fields_encRecords (rs : List (ℕ × List ℕ))
    (hgood : ∀ r ∈ rs, r.1 < 65536 ∧ r.2.length < 65536) :
    parse_extra_fields (encRecords rs) =
      rs.foldl (fun acc r => applyData r.1 r.2 acc) emptyTS :=
  parseFrom_encRecords rs emptyTS hgood

theorem records_cons (h : ℕ) (d rest : List ℕ)
    (hh : h < 65536) (hd : d.length < 65536) :
    records (encRecord h d ++ rest) =
      (h, 4, d.length) ::
        (records rest).map (fun r => (r.1, 4 + d.length + r.2.1, r.2.2)) := by
  have hsplit : encRecord h d ++ rest =
      encLE 2 h ++ (encLE 2 d.length ++ (d ++ rest)) := by
    simp [encRecord, List.append_assoc]
  have hlen : (encRecord h d ++ rest).length = 3 + d.length + rest.length + 1 := by
    simp [encRecord_length]
    omega
  have e1 : lread (encRecord h d ++ rest) 0 2 = h := by
    rw [hsplit, lread_append_left _ _ 2 0 (by simp [encLE_length])]
    exact lread_encLE_of_lt 2 h hh
  have e2 : lread (encRecord h d ++ rest) 2 2 = d.length := by
    have step := lread_append_right (encLE 2 h) (encLE 2 d.length ++ (d ++ rest)) 2 0
    rw [encLE_length] at step
    simp only [Nat.add_zero] at step
    rw [hsplit, step, lread_append_left _ _ 2 0 (by simp [encLE_length])]
    exact lread_encLE_of_lt 2 d.length hd
  have e4 : ∀ i, (encRecord h d ++ rest).getD (4 + d.length + i) 0 = rest.getD i 0 := by
    intro i
    rw [List.getD_append_right (encRecord h d) rest 0 (4 + d.length + i)
      (by rw [encRecord_length]; omega)]
    congr 1
    rw [encRecord_length]
    omega
  simp only [lread] at e1 e2
  show recordsLoop (encRecord h d ++ rest).length
      (fun i => (encRecord h d ++ rest).getD i 0)
      (encRecord h d ++ rest).length 0 = _
  rw [hlen, recordsLoop_succ]
  rw [if_pos (by omega : 0 < 3 + d.length + rest.length + 1)]
  simp only [Nat.zero_add]
  rw [e2]
  rw [if_neg (by omega : ¬ 3 + d.length + rest.length + 1 < 0 + 4)]
  rw [if_neg (by omega : ¬ 3 + d.length + rest.length + 1 < 0 + 4 + d.length)]
  rw [e1]
  rw [show (0 + 4 + d.length : ℕ) = (4 + d.length) + 0 by omega]
  rw [recordsLoop_shift (3 + d.length + rest.length + 1) (4 + d.length)
    (fun i => (encRecord h d ++ rest).getD i 0) (3 + d.length + rest.length) 0]
  rw [show 3 + d.length + rest.length + 1 - (4 + d.length) = rest.length by omega]
  rw [recordsLoop_congr rest.length _ (fun i => rest.getD i 0)
    (fun i _ => e4 i) (3 + d.length + rest.length) 0]
  rw [show 3 + d.length + rest.length = rest.length + (3 + d.length) by omega]
  rw [recordsLoop_fuel_add rest.length _ (3 + d.length) rest.length 0 (by omega)]
  rfl

/-- The warning-accumulating step of line 80. -/
def warnStep (acc : List ℕ) (r : ℕ × ℕ × ℕ) : List ℕ :=
  if r.1 = 0x000a then acc
  else if r.1 = 0x5455 then acc
  else acc ++ [r.1]

theorem parseWarnings_eq_foldl (bs : List ℕ) :
    parseWarnings bs = (records bs).foldl warnStep [] := rfl

theorem foldl_warnStep_map (k : ℕ) :
    ∀ (l : List (ℕ × ℕ × ℕ)) (acc : List ℕ),
      (l.map (fun r => (r.1, k + r.2.1, r.2.2))).foldl warnStep acc =
        l.foldl warnStep acc := by
  intro l
  induction l with
  | nil => intro acc; rfl
  | cons r l ih =>
    intro acc
    simp only [List.map_cons, List.foldl_cons]
    rw [ih]
    rfl

theorem foldl_warnStep_append :
    ∀ (l : List (ℕ × ℕ × ℕ)) (acc : List ℕ),
      l.foldl warnStep acc = acc ++ l.foldl warnStep [] := by
  intro l
  induction l with
  | nil => intro acc; simp
  | cons r l ih =>
    intro acc
    simp only [List.foldl_cons]
    rw [ih (warnStep acc r), ih (warnStep [] r)]
    unfold warnStep
    by_cases c1 : r.1 = 0x000a
    · simp [c1]
    · by_cases c2 : r.1 = 0x5455
      · simp [c1, c2]
      · simp [c1, c2]

theorem parseWarnings_cons (h : ℕ) (d rest : List ℕ)
    (hh : h < 65536) (hd : d.length < 65536) :
    parseWarnings (encRecord h d ++ rest) =
      (if h = 0x000a then [] else if h = 0x5455 then [] else [h]) ++
        parseWarnings rest := by
  rw [parseWarnings_eq_foldl, records_cons h d rest hh hd, List.foldl_cons,
    foldl_warnStep_map (4 + d.length), foldl_warnStep_append]
  rw [parseWarnings_eq_foldl]
  congr 1

/-- The record walk of a truncated buffer is an initial segment of the
record walk of the full buffer. -/
theorem recordsLoop_split (n k : ℕ) (f : ByteReader) (hk : k ≤ n) :
    ∀ fuel off, ∃ r2,
      recordsLoop n f fuel off = recordsLoop k f fuel off ++ r2 := by
  intro fuel
  induction fuel with
  | zero => intro off; exact ⟨[], rfl⟩
  | succ fuel ih =>
    intro off
    by_cases h1 : off < k
    · by_cases h2 : k < off + 4
      · refine ⟨recordsLoop n f (fuel + 1) off, ?_⟩
        rw [recordsLoop_succ k f fuel off, if_pos h1, if_pos h2]
        simp
      · by_cases h3 : k < off + 4 + readLEF f (off + 2) 2
        · refine ⟨recordsLoop n f (fuel + 1) off, ?_⟩
          rw [recordsLoop_succ k f fuel off, if_pos h1, if_neg h2, if_pos h3]
          simp
        · obtain ⟨r2, hr2⟩ := ih (off + 4 + readLEF f (off + 2) 2)
          refine ⟨r2, ?_⟩
          rw [recordsLoop_succ n f fuel off, recordsLoop_succ k f fuel off]
          rw [if_pos h1, if_pos (by omega : off < n), if_neg h2,
            if_neg (by omega : ¬ n < off + 4), if_neg h3,
            if_neg (by omega : ¬ n < off + 4 + readLEF f (off + 2) 2)]
          rw [hr2]
          simp
    · refine ⟨recordsLoop n f (fuel + 1) off, ?_⟩
      rw [recordsLoop_succ k f fuel off, if_neg h1]
      simp

theorem parse_extra_fields_def (bs : List ℕ) :
    parse_extra_fields bs =
      parseLoop bs.length (fun i => bs.getD i 0) bs.length 0 emptyTS := rfl

/-- Truncation: the full buffer's record walk extends the truncated one, and
the full parse result is the truncated parse result overridden by the
contributions of the remaining records. -/
theorem parse_take (bs : List ℕ) (k : ℕ) :
    ∃ rest,
      records bs = records (bs.take k) ++ rest ∧
      parse_extra_fields bs =
        mergeTS (parse_extra_fields (bs.take k))
          (rest.foldl (applyRecord (fun i => bs.getD i 0)) emptyTS) := by
  have hm : (bs.take k).length ≤ bs.length := by
    rw [List.length_take]
    exact min_le_right _ _
  have hagree : ∀ i, i < (bs.take k).length → (bs.take k).getD i 0 = bs.getD i 0 := by
    intro i hi
    rw [List.length_take] at hi
    exact getD_take bs k i (by omega)
  have hrec1 : records (bs.take k) =
      recordsLoop (bs.take k).length (fun i => bs.getD i 0) (bs.take k).length 0 := by
    unfold records
    exact recordsLoop_congr (bs.take k).length _ _ hagree (bs.take k).length 0
  have hrec2 : recordsLoop (bs.take k).length (fun i => bs.getD i 0) bs.length 0 =
      recordsLoop (bs.take k).length (fun i => bs.getD i 0) (bs.take k).length 0 := by
    rw [show bs.length = (bs.take k).length + (bs.length - (bs.take k).length) by omega]
    exact recordsLoop_fuel_add _ _ _ _ 0 (by omega)
  obtain ⟨rest, hsplit⟩ := recordsLoop_split bs.length (bs.take k).length
    (fun i => bs.getD i 0) hm bs.length 0
  refine ⟨rest, ?_, ?_⟩
  · rw [hrec1, ← hrec2]
    exact hsplit
  · have hp1 : parse_extra_fields (bs.take k) =
        parseLoop (bs.take k).length (fun i => bs.getD i 0)
          (bs.take k).length 0 emptyTS := by
      rw [parse_extra_fields_def]
      exact parseLoop_congr (bs.take k).length _ _ hagree (bs.take k).length 0 emptyTS
    have hp2 : parseLoop (bs.take k).length (fun i => bs.getD i 0)
        bs.length 0 emptyTS =
        parseLoop (bs.take k).length (fun i => bs.getD i 0)
          (bs.take k).length 0 emptyTS := by
      rw [show bs.length = (bs.take k).length + (bs.length - (bs.take k).length) by omega]
      exact parseLoop_fuel_add _ _ _ _ 0 _ (by omega)
    rw [parse_extra_fields_def, parseLoop_eq_foldl, hsplit, List.foldl_append,
      ← parseLoop_eq_foldl, hp2, ← hp1]
    exact foldl_applyRecord_merge _ rest (parse_extra_fields (bs.take k))

/-! Evaluating the extended-timestamp branch on a payload laid out in the
physical order create, modify, access. -/

theorem lread_eq_readLEF (l : List ℕ) (off w : ℕ) :
    readLEF (fun i => l.getD i 0) off w = lread l off w := rfl

theorem lread_skip (a b : List ℕ) (w off off' : ℕ) (h : off' = a.length + off) :
    lread (a ++ b) off' w = lread b off w := by
  rw [h]
  exact lread_append_right a b w off

theorem lread_cons_skip (x : ℕ) (l : List ℕ) (w off off' : ℕ) (h : off' = off + 1) :
    lread (x :: l) off' w = lread l off w := by
  rw [h]
  exact lread_cons_succ x l w off

theorem land_four_eq (n : ℕ) : n &&& 4 = if n.testBit 2 then 4 else 0 := by
  rw [show (4 : ℕ) = 2 ^ 2 by norm_num, Nat.and_two_pow]
  cases h : n.testBit 2 <;> simp [h]

theorem land_one_eq (n : ℕ) : n &&& 1 = if n.testBit 0 then 1 else 0 := by
  rw [show (1 : ℕ) = 2 ^ 0 by norm_num, Nat.and_two_pow]
  cases h : n.testBit 0 <;> simp [h]

theorem land_two_eq (n : ℕ) : n &&& 2 = if n.testBit 1 then 2 else 0 := by
  rw [show (2 : ℕ) = 2 ^ 1 by norm_num, Nat.and_two_pow]
  cases h : n.testBit 1 <;> simp [h]

theorem applyExtended_payload (flags c m a : ℕ) (ts : TimestampSet)
    (hc : c < 4294967296) (hm : m < 4294967296) (ha : a < 4294967296) :
    applyExtended
      (fun i =>
        (flags :: ((if flags.testBit 2 then encLE 4 c else []) ++
          ((if flags.testBit 0 then encLE 4 m else []) ++
           (if flags.testBit 1 then encLE 4 a else [])))).getD i 0)
      0
      (flags :: ((if flags.testBit 2 then encLE 4 c else []) ++
        ((if flags.testBit 0 then encLE 4 m else []) ++
         (if flags.testBit 1 then encLE 4 a else [])))).length ts =
      { mtime := if flags.testBit 0 then some (m : ℚ) else ts.mtime,
        atime := if flags.testBit 1 then some (a : ℚ) else ts.atime,
        ctime := if flags.testBit 2 then some (c : ℚ) else ts.ctime } := by
  cases h2 : flags.testBit 2 <;> cases h0 : flags.testBit 0 <;> cases h1 : flags.testBit 1
  · -- no flags
    simp [h2, h0, h1, applyExtended, land_four_eq, land_one_eq, land_two_eq]
  · -- atime only
    have ra : lread (flags :: encLE 4 a) 1 4 = a := by
      rw [lread_cons_skip _ _ 4 0 1 rfl]
      exact lread_encLE_of_lt 4 a ha
    have h0x := h0
    simp [Nat.testBit_zero] at h0x
    simp only [lread, List.getD_eq_getElem?_getD] at ra
    simp [h2, h0, h1, h0x, applyExtended, land_four_eq, land_one_eq, land_two_eq,
      encLE_length, ra]
  · -- mtime only
    have rm : lread (flags :: encLE 4 m) 1 4 = m := by
      rw [lread_cons_skip _ _ 4 0 1 rfl]
      exact lread_encLE_of_lt 4 m hm
    have h0x := h0
    simp [Nat.testBit_zero] at h0x
    simp only [lread, List.getD_eq_getElem?_getD] at rm
    simp [h2, h0, h1, h0x, applyExtended, land_four_eq, land_one_eq, land_two_eq,
      encLE_length, rm]
  · -- mtime and atime
    have rm : lread (flags :: (encLE 4 m ++ encLE 4 a)) 1 4 = m := by
      rw [lread_cons_skip _ _ 4 0 1 rfl,
        lread_append_left _ _ 4 0 (by simp [encLE_length])]
      exact lread_encLE_of_lt 4 m hm
    have ra : lread (flags :: (encLE 4 m ++ encLE 4 a)) 5 4 = a := by
      rw [lread_cons_skip _ _ 4 4 5 rfl,
        lread_skip (encLE 4 m) _ 4 0 4 (by simp [encLE_length])]
      exact lread_encLE_of_lt 4 a ha
    have h0x := h0
    simp [Nat.testBit_zero] at h0x
    simp only [lread, List.getD_eq_getElem?_getD] at rm ra
    simp [h2, h0, h1, h0x, applyExtended, land_four_eq, land_one_eq, land_two_eq,
      encLE_length, rm, ra]
  · -- ctime only
    have rc : lread (flags :: encLE 4 c) 1 4 = c := by
      rw [lread_cons_skip _ _ 4 0 1 rfl]
      exact lread_encLE_of_lt 4 c hc
    have h0x := h0
    simp [Nat.testBit_zero] at h0x
    simp only [lread, List.getD_eq_getElem?_getD] at rc
    simp [h2, h0, h1, h0x, applyExtended, land_four_eq, land_one_eq, land_two_eq,
      encLE_length, rc]
  · -- ctime and atime
    have rc : lread (flags :: (encLE 4 c ++ encLE 4 a)) 1 4 = c := by
      rw [lread_cons_skip _ _ 4 0 1 rfl,
        lread_append_left _ _ 4 0 (by simp [encLE_length])]
      exact lread_encLE_of_lt 4 c hc
    have ra : lread (flags :: (encLE 4 c ++ encLE 4 a)) 5 4 = a := by
      rw [lread_cons_skip _ _ 4 4 5 rfl,
        lread_skip (encLE 4 c) _ 4 0 4 (by simp [encLE_length])]
      exact lread_encLE_of_lt 4 a ha
    have h0x := h0
    simp [Nat.testBit_zero] at h0x
    simp only [lread, List.getD_eq_getElem?_getD] at rc ra
    simp [h2, h0, h1, h0x, applyExtended, land_four_eq, land_one_eq, land_two_eq,
      encLE_length, rc, ra]
  · -- ctime and mtime
    have rc : lread (flags :: (encLE 4 c ++ encLE 4 m)) 1 4 = c := by
      rw [lread_cons_skip _ _ 4 0 1 rfl,
        lread_append_left _ _ 4 0 (by simp [encLE_length])]
      exact lread_encLE_of_lt 4 c hc
    have rm : lread (flags :: (encLE 4 c ++ encLE 4 m)) 5 4 = m := by
      rw [lread_cons_skip _ _ 4 4 5 rfl,
        lread_skip (encLE 4 c) _ 4 0 4 (by simp [encLE_length])]
      exact lread_encLE_of_lt 4 m hm
    have h0x := h0
    simp [Nat.testBit_zero] at h0x
    simp only [lread, List.getD_eq_getElem?_getD] at rc rm
    simp [h2, h0, h1, h0x, applyExtended, land_four_eq, land_one_eq, land_two_eq,
      encLE_length, rc, rm]
  · -- all three
    have rc : lread (flags :: (encLE 4 c ++ (encLE 4 m ++ encLE 4 a))) 1 4 = c := by
      rw [lread_cons_skip _ _ 4 0 1 rfl,
        lread_append_left _ _ 4 0 (by simp [encLE_length])]
      exact lread_encLE_of_lt 4 c hc
    have rm : lread (flags :: (encLE 4 c ++ (encLE 4 m ++ encLE 4 a))) 5 4 = m := by
      rw [lread_cons_skip _ _ 4 4 5 rfl,
        lread_skip (encLE 4 c) _ 4 0 4 (by simp [encLE_length]),
        lread_append_left _ _ 4 0 (by simp [encLE_length])]
      exact lread_encLE_of_lt 4 m hm
    have ra : lread (flags :: (encLE 4 c ++ (encLE 4 m ++ encLE 4 a))) 9 4 = a := by
      rw [lread_cons_skip _ _ 4 8 9 rfl,
        lread_skip (encLE 4 c) _ 4 4 8 (by simp [encLE_length]),
        lread_skip (encLE 4 m) _ 4 0 4 (by simp [encLE_length])]
      exact lread_encLE_of_lt 4 a ha
    have h0x := h0
    simp [Nat.testBit_zero] at h0x
    simp only [lread, List.getD_eq_getElem?_getD] at rc rm ra
    simp [h2, h0, h1, h0x, applyExtended, land_four_eq, land_one_eq, land_two_eq,
      encLE_length, rc, rm, ra]

/-! The NTFS sub-attribute scan skips non-tag-1 sub-attributes and decodes
the three FILETIME values of the first tag-1 sub-attribute. -/

theorem ntfsLoop_skip (s1 : ℕ) (tail : List ℕ) (hs1a : 24 ≤ s1)
    (hs1b : s1 < 65536) (htail : 24 ≤ tail.length) :
    ∀ (pre : List (ℕ × List ℕ)),
      (∀ p ∈ pre, p.1 < 65536 ∧ p.1 ≠ 1 ∧ p.2.length < 65536) →
    ∀ (front : List ℕ) (fuel : ℕ), pre.length < fuel →
    ∀ ts,
      ntfsLoop
        (fun i => (front ++ (encSubs pre ++ encSub 1 s1 tail)).getD i 0) 0
        (front ++ (encSubs pre ++ encSub 1 s1 tail)).length fuel front.length ts =
      { ts with
          ctime := some (filetimeToUnix (lread tail 16 8))
          mtime := some (filetimeToUnix (lread tail 0 8))
          atime := some (filetimeToUnix (lread tail 8 8)) } := by
  intro pre
  induction pre with
  | nil =>
    intro _ front fuel hfuel ts
    match fuel, hfuel with
    | fuel + 1, _ =>
    simp only [encSubs, List.nil_append]
    have hform : front ++ encSub 1 s1 tail =
        front ++ (encLE 2 1 ++ (encLE 2 s1 ++ tail)) := by
      simp [encSub, List.append_assoc]
    rw [hform]
    have hlen : (front ++ (encLE 2 1 ++ (encLE 2 s1 ++ tail))).length =
        front.length + 4 + tail.length := by
      simp [encLE_length]
      omega
    have e_tag : lread (front ++ (encLE 2 1 ++ (encLE 2 s1 ++ tail)))
        front.length 2 = 1 := by
      rw [lread_skip front _ 2 0 front.length (by omega),
        lread_append_left _ _ 2 0 (by simp [encLE_length])]
      exact lread_encLE_of_lt 2 1 (by norm_num)
    have e_size : lread (front ++ (encLE 2 1 ++ (encLE 2 s1 ++ tail)))
        (front.length + 2) 2 = s1 := by
      rw [lread_skip front _ 2 2 (front.length + 2) (by omega),
        lread_skip (encLE 2 1) _ 2 0 2 (by simp [encLE_length]),
        lread_append_left _ _ 2 0 (by simp [encLE_length])]
      exact lread_encLE_of_lt 2 s1 hs1b
    have e_m : lread (front ++ (encLE 2 1 ++ (encLE 2 s1 ++ tail)))
        (front.length + 4) 8 = lread tail 0 8 := by
      rw [lread_skip front _ 8 4 (front.length + 4) (by omega),
        lread_skip (encLE 2 1) _ 8 2 4 (by simp [encLE_length]),
        lread_skip (encLE 2 s1) _ 8 0 2 (by simp [encLE_length])]
    have e_a : lread (front ++ (encLE 2 1 ++ (encLE 2 s1 ++ tail)))
        (front.length + 4 + 8) 8 = lread tail 8 8 := by
      rw [lread_skip front _ 8 12 (front.length + 4 + 8) (by omega),
        lread_skip (encLE 2 1) _ 8 10 12 (by simp [encLE_length]),
        lread_skip (encLE 2 s1) _ 8 8 10 (by simp [encLE_length])]
    have e_c : lread (front ++ (encLE 2 1 ++ (encLE 2 s1 ++ tail)))
        (front.length + 4 + 16) 8 = lread tail 16 8 := by
      rw [lread_skip front _ 8 20 (front.length + 4 + 16) (by omega),
        lread_skip (encLE 2 1) _ 8 18 20 (by simp [encLE_length]),
        lread_skip (encLE 2 s1) _ 8 16 18 (by simp [encLE_length])]
    rw [ntfsLoop_succ]
    simp only [Nat.zero_add, lread_eq_readLEF]
    rw [e_tag, e_size, e_m, e_a, e_c, hlen]
    rw [if_pos (by omega : front.length < front.length + 4 + tail.length)]
    rw [if_neg (by omega : ¬ front.length + 4 + tail.length < front.length + 4)]
    rw [if_pos rfl]
    rw [if_pos (by omega :
      24 ≤ s1 ∧ front.length + 4 + 24 ≤ front.length + 4 + tail.length)]
  | cons p pre ih =>
    intro hpre front fuel hfuel ts
    obtain ⟨t, pd⟩ := p
    obtain ⟨ht65, ht1, hpd⟩ := hpre (t, pd) (by simp)
    match fuel, hfuel with
    | fuel + 1, hfuel =>
    simp only [encSubs]
    have hform : front ++ ((encSub t pd.length pd ++ encSubs pre) ++ encSub 1 s1 tail) =
        front ++ (encLE 2 t ++ (encLE 2 pd.length ++
          (pd ++ (encSubs pre ++ encSub 1 s1 tail)))) := by
      simp [encSub, List.append_assoc]
    have hlen : (front ++ (encLE 2 t ++ (encLE 2 pd.length ++
        (pd ++ (encSubs pre ++ encSub 1 s1 tail))))).length =
        front.length + 4 + pd.length + (encSubs pre).length + 4 + tail.length := by
      simp [encSub, encLE_length]
      omega
    have e_tag : lread (front ++ (encLE 2 t ++ (encLE 2 pd.length ++
        (pd ++ (encSubs pre ++ encSub 1 s1 tail))))) front.length 2 = t := by
      rw [lread_skip front _ 2 0 front.length (by omega),
        lread_append_left _ _ 2 0 (by simp [encLE_length])]
      exact lread_encLE_of_lt 2 t ht65
    have e_size : lread (front ++ (encLE 2 t ++ (encLE 2 pd.length ++
        (pd ++ (encSubs pre ++ encSub 1 s1 tail))))) (front.length + 2) 2 =
        pd.length := by
      rw [lread_skip front _ 2 2 (front.length + 2) (by omega),
        lread_skip (encLE 2 t) _ 2 0 2 (by simp [encLE_length]),
        lread_append_left _ _ 2 0 (by simp [encLE_length])]
      exact lread_encLE_of_lt 2 pd.length hpd
    rw [hform, ntfsLoop_succ]
    simp only [Nat.zero_add, lread_eq_readLEF]
    rw [e_tag, e_size, hlen]
    rw [if_pos (by omega : front.length <
      front.length + 4 + pd.length + (encSubs pre).length + 4 + tail.length)]
    rw [if_neg (by omega :
      ¬ front.length + 4 + pd.length + (encSubs pre).length + 4 + tail.length <
        front.length + 4)]
    rw [if_neg ht1]
    have hregroup : front ++ (encLE 2 t ++ (encLE 2 pd.length ++
        (pd ++ (encSubs pre ++ encSub 1 s1 tail)))) =
        (front ++ encSub t pd.length pd) ++ (encSubs pre ++ encSub 1 s1 tail) := by
      simp [encSub, List.append_assoc]
    rw [hregroup]
    have hofflen : front.length + 4 + pd.length =
        (front ++ encSub t pd.length pd).length := by
      simp [encSub, encLE_length]
      omega
    have hlen2 : ((front ++ encSub t pd.length pd) ++
        (encSubs pre ++ encSub 1 s1 tail)).length =
        front.length + 4 + pd.length + (encSubs pre).length + 4 + tail.length := by
      simp [encSub, encLE_length]
      omega
    rw [← hlen2, hofflen]
    exact ih (fun q hq => hpre q (by simp [hq])) (front ++ encSub t pd.length pd)
      fuel (by simpa using Nat.lt_of_succ_lt_succ hfuel) ts

theorem encSubs_length_ge : ∀ pre : List (ℕ × List ℕ),
    pre.length ≤ (encSubs pre).length := by
  intro pre
  induction pre with
  | nil => simp [encSubs]
  | cons p pre ih =>
    obtain ⟨t, d⟩ := p
    simp only [encSubs, List.length_append, List.length_cons, encSub,
      encLE_length]
    omega

/-- Parsing a single well-formed NTFS record whose first tag-1 sub-attribute
is preceded by arbitrary non-tag-1 sub-attributes. -/
theorem parse_ntfs_record (rsvd : List ℕ) (hrsvd : rsvd.length = 4)
    (pre : List (ℕ × List ℕ))
    (hpre : ∀ p ∈ pre, p.1 < 65536 ∧ p.1 ≠ 1 ∧ p.2.length < 65536)
    (s1 : ℕ) (hs1a : 24 ≤ s1) (hs1b : s1 < 65536)
    (tail : List ℕ) (htail : 24 ≤ tail.length)
    (hdlen : (rsvd ++ (encSubs pre ++ encSub 1 s1 tail)).length < 65536) :
    parse_extra_fields
      (encRecord 0x000a (rsvd ++ (encSubs pre ++ encSub 1 s1 tail))) =
      ⟨some (filetimeToUnix (lread tail 0 8)),
       some (filetimeToUnix (lread tail 8 8)),
       some (filetimeToUnix (lread tail 16 8))⟩ := by
  have henc : encRecord 0x000a (rsvd ++ (encSubs pre ++ encSub 1 s1 tail)) =
      encRecords [(0x000a, rsvd ++ (encSubs pre ++ encSub 1 s1 tail))] := by
    simp [encRecords]
  have hlen : (rsvd ++ (encSubs pre ++ encSub 1 s1 tail)).length =
      4 + (encSubs pre).length + (4 + tail.length) := by
    simp only [List.length_append, encSub, encLE_length, hrsvd]
    omega
  rw [henc, parse_extra_fields_encRecords
    [(0x000a, rsvd ++ (encSubs pre ++ encSub 1 s1 tail))]
    (by intro r hr; simp at hr; subst hr; exact ⟨by norm_num, hdlen⟩)]
  simp only [List.foldl_cons, List.foldl_nil]
  unfold applyData
  rw [if_pos rfl]
  unfold applyNTFS
  rw [if_pos (by omega :
    32 ≤ (rsvd ++ (encSubs pre ++ encSub 1 s1 tail)).length)]
  rw [show (4 : ℕ) = rsvd.length from hrsvd.symm]
  exact ntfsLoop_skip s1 tail hs1a hs1b htail pre hpre rsvd
    (rsvd ++ (encSubs pre ++ encSub 1 s1 tail)).length
    (by have := encSubs_length_ge pre; omega) emptyTS

/-- The resolver's closed form: each output is the parser's field when
present, else the legacy base. -/
theorem resolve_eq (base : ℚ) (extra : List ℕ) :
    resolve base extra =
      ⟨((parse_extra_fields extra).mtime).getD base,
       ((parse_extra_fields extra).atime).getD base,
       ((parse_extra_fields extra).ctime).getD base⟩ := by
  unfold resolve
  by_cases h : extra = []
  · subst h
    rw [if_neg (by simp)]
    rfl
  · rw [if_pos h]
    cases hm : (parse_extra_fields extra).mtime <;>
      cases ha : (parse_extra_fields extra).atime <;>
      cases hc : (parse_extra_fields extra).ctime <;>
      simp [hm, ha, hc]

theorem pyInt_close (q : ℚ) : |(pyInt q : ℚ) - q| < 1 := by
  unfold pyInt
  by_cases h : 0 ≤ q
  · rw [if_pos h]
    have h1 : (⌊q⌋ : ℚ) ≤ q := Int.floor_le q
    have h2 : q - 1 < ⌊q⌋ := Int.sub_one_lt_floor q
    rw [abs_lt]
    constructor <;> linarith
  · rw [if_neg h]
    have h1 : q ≤ (⌈q⌉ : ℚ) := Int.le_ceil q
    have h2 : (⌈q⌉ : ℚ) < q + 1 := Int.ceil_lt_add_one q
    rw [abs_lt]
    constructor <;> linarith

theorem oFirst_isSome (a b : Option ℚ) (h : b.isSome) : (oFirst a b).isSome := by
  cases a <;> simp [oFirst, h]

theorem foldl_applyRecord_mtime_none (f : ByteReader) :
    ∀ (l : List (ℕ × ℕ × ℕ)) (ts : TimestampSet),
      (∀ r ∈ l, (applyRecord f emptyTS r).mtime = none) →
      (l.foldl (applyRecord f) ts).mtime = ts.mtime := by
  intro l
  induction l with
  | nil => intro ts _; rfl
  | cons r l ih =>
    intro ts hnone
    simp only [List.foldl_cons]
    rw [ih (applyRecord f ts r) (fun q hq => hnone q (by simp [hq])),
      applyRecord_merge f ts r]
    simp only [mergeTS, hnone r (by simp), oFirst]

theorem foldl_applyRecord_atime_none (f : ByteReader) :
    ∀ (l : List (ℕ × ℕ × ℕ)) (ts : TimestampSet),
      (∀ r ∈ l, (applyRecord f emptyTS r).atime = none) →
      (l.foldl (applyRecord f) ts).atime = ts.atime := by
  intro l
  induction l with
  | nil => intro ts _; rfl
  | cons r l ih =>
    intro ts hnone
    simp only [List.foldl_cons]
    rw [ih (applyRecord f ts r) (fun q hq => hnone q (by simp [hq])),
      applyRecord_merge f ts r]
    simp only [mergeTS, hnone r (by simp), oFirst]

theorem foldl_applyRecord_ctime_none (f : ByteReader) :
    ∀ (l : List (ℕ × ℕ × ℕ)) (ts : TimestampSet),
      (∀ r ∈ l, (applyRecord f emptyTS r).ctime = none) →
      (l.foldl (applyRecord f) ts).ctime = ts.ctime := by
  intro l
  induction l with
  | nil => intro ts _; rfl
  | cons r l ih =>
    intro ts hnone
    simp only [List.foldl_cons]
    rw [ih (applyRecord f ts r) (fun q hq => hnone q (by simp [hq])),
      applyRecord_merge f ts r]
    simp only [mergeTS, hnone r (by simp), oFirst]

/-- Parsing a single extended-timestamp record with an arbitrary flag byte
and the flagged fields laid out in physical order create, modify, access. -/
theorem parse_extended_record (flags c m a : ℕ)
    (hc : c < 4294967296) (hm : m < 4294967296) (ha : a < 4294967296) :
    parse_extra_fields
      (encRecord 0x5455
        (flags :: ((if flags.testBit 2 then encLE 4 c else []) ++
          ((if flags.testBit 0 then encLE 4 m else []) ++
           (if flags.testBit 1 then encLE 4 a else []))))) =
      ⟨if flags.testBit 0 then some (m : ℚ) else none,
       if flags.testBit 1 then some (a : ℚ) else none,
       if flags.testBit 2 then some (c : ℚ) else none⟩ := by
  have hdl : (flags :: ((if flags.testBit 2 then encLE 4 c else []) ++
      ((if flags.testBit 0 then encLE 4 m else []) ++
       (if flags.testBit 1 then encLE 4 a else [])))).length < 65536 := by
    cases h2 : flags.testBit 2 <;> cases h0 : flags.testBit 0 <;>
      cases h1 : flags.testBit 1 <;> simp [h2, h0, h1, encLE_length]
  have henc : encRecord 0x5455
      (flags :: ((if flags.testBit 2 then encLE 4 c else []) ++
        ((if flags.testBit 0 then encLE 4 m else []) ++
         (if flags.testBit 1 then encLE 4 a else [])))) =
      encRecords [(0x5455,
        flags :: ((if flags.testBit 2 then encLE 4 c else []) ++
          ((if flags.testBit 0 then encLE 4 m else []) ++
           (if flags.testBit 1 then encLE 4 a else []))))] := by
    simp [encRecords]
  rw [henc, parse_extra_fields_encRecords _
    (by intro r hr; simp only [List.mem_singleton] at hr; subst hr
        exact ⟨by norm_num, hdl⟩)]
  simp only [List.foldl_cons, List.foldl_nil]
  unfold applyData
  rw [if_neg (by norm_num), if_pos rfl]
  rw [applyExtended_payload flags c m a emptyTS hc hm ha]
  rfl

/-! Claim theorems. -/

/-- C1: for every well-formed NTFS extra-field record (header id 0x000a,
4 reserved bytes, any non-tag-1 sub-attributes followed by a tag-1
sub-attribute with declared size at least 24 and at least 24 payload bytes),
`parse_extra_fields` returns all three timestamps, read as three consecutive
8-byte little-endian unsigned integers in order modify, access, create, each
converted as `(FILETIME - 116444736000000000) / 10000000`; resolving with
any legacy base yields exactly those three values. -/
theorem claim_C1 (base : ℚ) (rsvd : List ℕ) (hrsvd : rsvd.length = 4)
    (pre : List (ℕ × List ℕ))
    (hpre : ∀ p ∈ pre, p.1 < 65536 ∧ p.1 ≠ 1 ∧ p.2.length < 65536)
    (s1 : ℕ) (hs1a : 24 ≤ s1) (hs1b : s1 < 65536)
    (tail : List ℕ) (htail : 24 ≤ tail.length)
    (hdlen : (rsvd ++ (encSubs pre ++ encSub 1 s1 tail)).length < 65536) :
    parse_extra_fields
      (encRecord 0x000a (rsvd ++ (encSubs pre ++ encSub 1 s1 tail))) =
      ⟨some (filetimeToUnix (lread tail 0 8)),
       some (filetimeToUnix (lread tail 8 8)),
       some (filetimeToUnix (lread tail 16 8))⟩ ∧
    resolve base (encRecord 0x000a (rsvd ++ (encSubs pre ++ encSub 1 s1 tail))) =
      ⟨filetimeToUnix (lread tail 0 8), filetimeToUnix (lread tail 8 8),
       filetimeToUnix (lread tail 16 8)⟩ := by
  have h := parse_ntfs_record rsvd hrsvd pre hpre s1 hs1a hs1b tail htail hdlen
  refine ⟨h, ?_⟩
  rw [resolve_eq, h]
  rfl

/-- Concrete instance of C1: the record encoding 2020-01-01T00:00:00Z plus
one and two seconds resolves to mtime 1577836801, atime 1577836802,
ctime 1577836800 whatever the legacy base. -/
theorem claim_C1_witness :
    resolve 123
      (encRecord 0x000a ([0, 0, 0, 0] ++ (encSubs [] ++ encSub 1 24
        (encLE 8 132223104010000000 ++ (encLE 8 132223104020000000 ++
         encLE 8 132223104000000000))))) =
      ⟨1577836801, 1577836802, 1577836800⟩ := by
  have h := (claim_C1 123 [0, 0, 0, 0] rfl [] (by simp) 24 (by norm_num)
    (by norm_num)
    (encLE 8 132223104010000000 ++ (encLE 8 132223104020000000 ++
     encLE 8 132223104000000000)) (by decide) (by decide)).2
  rw [h,
    show lread (encLE 8 132223104010000000 ++ (encLE 8 132223104020000000 ++
      encLE 8 132223104000000000)) 0 8 = 132223104010000000 from by decide,
    show lread (encLE 8 132223104010000000 ++ (encLE 8 132223104020000000 ++
      encLE 8 132223104000000000)) 8 8 = 132223104020000000 from by decide,
    show lread (encLE 8 132223104010000000 ++ (encLE 8 132223104020000000 ++
      encLE 8 132223104000000000)) 16 8 = 132223104000000000 from by decide]
  norm_num [filetimeToUnix, Resolved.mk.injEq]

/-- C2 as written is false: the code reads extended-timestamp fields with
the UNSIGNED format '<I', so the 4-byte value 0xFFFFFFFF decodes to
4294967295, not to the negative epoch value -1 a signed read would give. -/
theorem claim_C2_counterexample :
    (parse_extra_fields [85, 84, 5, 0, 1, 255, 255, 255, 255]).mtime =
      some (4294967295 : ℚ) ∧
    (parse_extra_fields [85, 84, 5, 0, 1, 255, 255, 255, 255]).mtime ≠
      some (-1 : ℚ) := by
  refine ⟨by decide, ?_⟩
  intro hcontra
  have h1 : (parse_extra_fields [85, 84, 5, 0, 1, 255, 255, 255, 255]).mtime =
      some (4294967295 : ℚ) := by decide
  rw [h1] at hcontra
  have h2 := Option.some.inj hcontra
  norm_num at h2

/-- C2 amended: every present extended-timestamp field is decoded as a
4-byte little-endian UNSIGNED integer taken directly as epoch seconds, so
the decoded values are always nonnegative; pre-1970 values with the high bit
set decode to large positive numbers, never to negative epoch seconds. -/
theorem claim_C2_amended (c m a : ℕ)
    (hc : c < 4294967296) (hm : m < 4294967296) (ha : a < 4294967296) :
    parse_extra_fields
      (encRecord 0x5455 (7 :: (encLE 4 c ++ (encLE 4 m ++ encLE 4 a)))) =
      ⟨some ((m : ℕ) : ℚ), some ((a : ℕ) : ℚ), some ((c : ℕ) : ℚ)⟩ ∧
    0 ≤ ((m : ℕ) : ℚ) ∧ 0 ≤ ((a : ℕ) : ℚ) ∧ 0 ≤ ((c : ℕ) : ℚ) := by
  have h := parse_extended_record 7 c m a hc hm ha
  rw [show (7 : ℕ).testBit 2 = true from by decide,
    show (7 : ℕ).testBit 0 = true from by decide,
    show (7 : ℕ).testBit 1 = true from by decide] at h
  simp only [if_true] at h
  refine ⟨?_, by positivity, by positivity, by positivity⟩
  simpa using h

/-- Instance of the amended C2 at the high-bit value 0xFFFFFFFF: it decodes
to the nonnegative value 4294967295. -/
theorem claim_C2_witness :
    parse_extra_fields
      (encRecord 0x5455 (7 :: (encLE 4 4294967295 ++
        (encLE 4 4294967295 ++ encLE 4 4294967295)))) =
      ⟨some ((4294967295 : ℕ) : ℚ), some ((4294967295 : ℕ) : ℚ),
       some ((4294967295 : ℕ) : ℚ)⟩ ∧
    0 ≤ ((4294967295 : ℕ) : ℚ) := by
  have h := claim_C2_amended 4294967295 4294967295 4294967295
    (by norm_num) (by norm_num) (by norm_num)
  exact ⟨h.1, h.2.1⟩

/-- C3 as written is false: with two extended-timestamp records both setting
mtime, the record before the truncation point is parsed, but its value does
not equal the full-buffer value, because the later record overrides it. -/
theorem claim_C3_counterexample :
    (parse_extra_fields
      (([85, 84, 5, 0, 1, 100, 0, 0, 0, 85, 84, 5, 0, 1, 200, 0, 0, 0] :
        List ℕ).take 9)).mtime = some (100 : ℚ) ∧
    (parse_extra_fields
      [85, 84, 5, 0, 1, 100, 0, 0, 0, 85, 84, 5, 0, 1, 200, 0, 0, 0]).mtime =
      some (200 : ℚ) ∧
    (parse_extra_fields
      (([85, 84, 5, 0, 1, 100, 0, 0, 0, 85, 84, 5, 0, 1, 200, 0, 0, 0] :
        List ℕ).take 9)).mtime ≠
    (parse_extra_fields
      [85, 84, 5, 0, 1, 100, 0, 0, 0, 85, 84, 5, 0, 1, 200, 0, 0, 0]).mtime := by
  refine ⟨by decide, by decide, ?_⟩
  intro hcontra
  rw [show (parse_extra_fields
      (([85, 84, 5, 0, 1, 100, 0, 0, 0, 85, 84, 5, 0, 1, 200, 0, 0, 0] :
        List ℕ).take 9)).mtime = some (100 : ℚ) from by decide,
    show (parse_extra_fields
      [85, 84, 5, 0, 1, 100, 0, 0, 0, 85, 84, 5, 0, 1, 200, 0, 0, 0]).mtime =
      some (200 : ℚ) from by decide] at hcontra
  have h2 := Option.some.inj hcontra
  norm_num at h2

/-- C3 amended: truncating at any byte boundary never raises; the truncated
buffer's record walk is an initial segment of the full one, the truncated
result's present fields are a subset of the full result's present fields,
and any field that no record at or beyond the truncation point sets keeps
exactly its truncated-buffer value on the full buffer. -/
theorem claim_C3_amended (bs : List ℕ) (k : ℕ) :
    ∃ rest,
      records bs = records (bs.take k) ++ rest ∧
      parse_extra_fields bs =
        mergeTS (parse_extra_fields (bs.take k))
          (rest.foldl (applyRecord (fun i => bs.getD i 0)) emptyTS) ∧
      ((parse_extra_fields (bs.take k)).mtime.isSome →
        (parse_extra_fields bs).mtime.isSome) ∧
      ((parse_extra_fields (bs.take k)).atime.isSome →
        (parse_extra_fields bs).atime.isSome) ∧
      ((parse_extra_fields (bs.take k)).ctime.isSome →
        (parse_extra_fields bs).ctime.isSome) ∧
      ((∀ r ∈ rest, (applyRecord (fun i => bs.getD i 0) emptyTS r).mtime = none) →
        (parse_extra_fields bs).mtime = (parse_extra_fields (bs.take k)).mtime) ∧
      ((∀ r ∈ rest, (applyRecord (fun i => bs.getD i 0) emptyTS r).atime = none) →
        (parse_extra_fields bs).atime = (parse_extra_fields (bs.take k)).atime) ∧
      ((∀ r ∈ rest, (applyRecord (fun i => bs.getD i 0) emptyTS r).ctime = none) →
        (parse_extra_fields bs).ctime = (parse_extra_fields (bs.take k)).ctime) := by
  obtain ⟨rest, h1, h2⟩ := parse_take bs k
  refine ⟨rest, h1, h2, ?_, ?_, ?_, ?_, ?_, ?_⟩
  · intro h
    rw [h2]
    exact oFirst_isSome _ _ h
  · intro h
    rw [h2]
    exact oFirst_isSome _ _ h
  · intro h
    rw [h2]
    exact oFirst_isSome _ _ h
  · intro h
    rw [h2]
    show oFirst (rest.foldl (applyRecord fun i => bs.getD i 0) emptyTS).mtime
      (parse_extra_fields (bs.take k)).mtime = _
    rw [foldl_applyRecord_mtime_none _ rest emptyTS h]
    rfl
  · intro h
    rw [h2]
    show oFirst (rest.foldl (applyRecord fun i => bs.getD i 0) emptyTS).atime
      (parse_extra_fields (bs.take k)).atime = _
    rw [foldl_applyRecord_atime_none _ rest emptyTS h]
    rfl
  · intro h
    rw [h2]
    show oFirst (rest.foldl (applyRecord fun i => bs.getD i 0) emptyTS).ctime
      (parse_extra_fields (bs.take k)).ctime = _
    rw [foldl_applyRecord_ctime_none _ rest emptyTS h]
    rfl

/-- Instance of the amended C3: on the two-record buffer truncated after the
first record, mtime is present in both the truncated and the full parse. -/
theorem claim_C3_witness :
    (parse_extra_fields
      (([85, 84, 5, 0, 1, 100, 0, 0, 0, 85, 84, 5, 0, 1, 200, 0, 0, 0] :
        List ℕ).take 9)).mtime.isSome = true ∧
    (parse_extra_fields
      [85, 84, 5, 0, 1, 100, 0, 0, 0, 85, 84, 5, 0, 1, 200, 0, 0, 0]).mtime.isSome
      = true := by
  obtain ⟨rest, h1, h2, hmono, _⟩ := claim_C3_amended
    [85, 84, 5, 0, 1, 100, 0, 0, 0, 85, 84, 5, 0, 1, 200, 0, 0, 0] 9
  exact ⟨by decide, hmono (by decide)⟩

/-- C4: the parser is total and never reads bytes beyond the buffer length:
its result depends only on the bytes below the length, and the walk stops,
returning the accumulated dictionary, when fewer than 4 bytes remain for a
header or when the declared payload length exceeds the remaining buffer. -/
theorem claim_C4 :
    (∀ (n : ℕ) (f g : ByteReader), (∀ i, i < n → f i = g i) →
      parseExtraF n f emptyTS = parseExtraF n g emptyTS) ∧
    (∀ (n : ℕ) (f : ByteReader) (fuel off : ℕ) (ts : TimestampSet),
      off < n → n < off + 4 → parseLoop n f (fuel + 1) off ts = ts) ∧
    (∀ (n : ℕ) (f : ByteReader) (fuel off : ℕ) (ts : TimestampSet),
      ¬ n < off + 4 → n < off + 4 + readLEF f (off + 2) 2 →
      parseLoop n f (fuel + 1) off ts = ts) := by
  refine ⟨?_, ?_, ?_⟩
  · intro n f g h
    exact parseLoop_congr n f g h n 0 emptyTS
  · intro n f fuel off ts h1 h2
    rw [parseLoop_succ, if_pos h1, if_pos h2]
  · intro n f fuel off ts h1 h2
    rw [parseLoop_succ]
    by_cases h0 : off < n
    · rw [if_pos h0, if_neg h1, if_pos h2]
    · rw [if_neg h0]

/-- Instance of C4: a byte source changed only beyond the buffer length
parses identically, and both stop conditions return the accumulator. -/
theorem claim_C4_witness :
    parseExtraF 2 (fun _ => 0) emptyTS =
      parseExtraF 2 (fun i => if i < 2 then 0 else 7) emptyTS ∧
    parseLoop 4 (fun _ => 0) (0 + 1) 1 emptyTS = emptyTS ∧
    parseLoop 6 (fun _ => 9) (0 + 1) 0 emptyTS = emptyTS := by
  refine ⟨claim_C4.1 2 (fun _ => 0) (fun i => if i < 2 then 0 else 7)
      (fun i hi => by simp [hi]),
    claim_C4.2.1 4 (fun _ => 0) 0 1 emptyTS (by norm_num) (by norm_num),
    claim_C4.2.2 6 (fun _ => 9) 0 0 emptyTS (by norm_num) (by decide)⟩

/-- C5: the resolver initializes all three outputs to the legacy-derived
base and strictly overrides each with the parser's field when present; with
empty extra bytes the output triple is the legacy value three times. -/
theorem claim_C5 (base : ℚ) (extra : List ℕ) :
    resolve base extra =
      ⟨((parse_extra_fields extra).mtime).getD base,
       ((parse_extra_fields extra).atime).getD base,
       ((parse_extra_fields extra).ctime).getD base⟩ ∧
    resolve base [] = ⟨base, base, base⟩ := by
  refine ⟨resolve_eq base extra, ?_⟩
  rw [resolve_eq base []]
  rfl

/-- C6: for every flag byte, exactly the flagged fields appear in the
parser's result (bit 0 modify, bit 1 access, bit 2 create; unset bits give
absent fields, not zero), the payload being consumed in the physical order
create, modify, access. -/
theorem claim_C6 (flags c m a : ℕ) (hflags : flags < 256)
    (hc : c < 4294967296) (hm : m < 4294967296) (ha : a < 4294967296) :
    parse_extra_fields
      (encRecord 0x5455
        (flags :: ((if flags.testBit 2 then encLE 4 c else []) ++
          ((if flags.testBit 0 then encLE 4 m else []) ++
           (if flags.testBit 1 then encLE 4 a else []))))) =
      ⟨if flags.testBit 0 then some ((m : ℕ) : ℚ) else none,
       if flags.testBit 1 then some ((a : ℕ) : ℚ) else none,
       if flags.testBit 2 then some ((c : ℕ) : ℚ) else none⟩ :=
  parse_extended_record flags c m a hc hm ha

/-- Instance of C6: flags 7 with payload ctime/mtime/atime equal to
1577836800/1577836801/1577836802 yields exactly those three values. -/
theorem claim_C6_witness :
    parse_extra_fields
      (encRecord 0x5455 (7 :: (encLE 4 1577836800 ++
        (encLE 4 1577836801 ++ encLE 4 1577836802)))) =
      ⟨some (1577836801 : ℚ), some (1577836802 : ℚ), some (1577836800 : ℚ)⟩ := by
  have h := claim_C6 7 1577836800 1577836801 1577836802 (by norm_num)
    (by norm_num) (by norm_num) (by norm_num)
  rw [show (7 : ℕ).testBit 2 = true from by decide,
    show (7 : ℕ).testBit 0 = true from by decide,
    show (7 : ℕ).testBit 1 = true from by decide] at h
  simp only [if_true] at h
  simpa using h

/-- C7: converting epoch seconds to a FILETIME with the applier's formula
and back with the parser's formula reproduces the original value to within
sub-microsecond rounding. -/
theorem claim_C7 (t : ℚ) :
    |filetimeToUnix (unixToFiletime t) - t| < 1 / 1000000 := by
  have key : filetimeToUnix (unixToFiletime t) - t =
      ((pyInt (t * 10000000 + 116444736000000000) : ℚ) -
        (t * 10000000 + 116444736000000000)) / 10000000 := by
    unfold filetimeToUnix unixToFiletime
    ring
  rw [key, abs_div, show |(10000000 : ℚ)| = 10000000 from by norm_num]
  have h1 := pyInt_close (t * 10000000 + 116444736000000000)
  have h2 : |(pyInt (t * 10000000 + 116444736000000000) : ℚ) -
      (t * 10000000 + 116444736000000000)| / 10000000 < 1 / 10000000 := by
    gcongr
  have h3 : (1 : ℚ) / 10000000 < 1 / 1000000 := by norm_num
  linarith

/-- C8: a record with an unknown header id contributes no timestamps and
only a diagnostic log entry; interleaved between two valid timestamp
records it leaves their parsing unchanged. -/
theorem claim_C8 (hA hU hB : ℕ) (dA dU dB : List ℕ)
    (hAv : hA = 0x000a ∨ hA = 0x5455) (hBv : hB = 0x000a ∨ hB = 0x5455)
    (hU1 : hU ≠ 0x000a) (hU2 : hU ≠ 0x5455) (hU65 : hU < 65536)
    (hdA : dA.length < 65536) (hdU : dU.length < 65536)
    (hdB : dB.length < 65536) :
    parse_extra_fields (encRecords [(hA, dA), (hU, dU), (hB, dB)]) =
      parse_extra_fields (encRecords [(hA, dA), (hB, dB)]) ∧
    (∀ ts, applyData hU dU ts = ts) ∧
    parseWarnings (encRecords [(hA, dA), (hU, dU), (hB, dB)]) = [hU] := by
  have hA65 : hA < 65536 := by rcases hAv with h | h <;> subst h <;> norm_num
  have hB65 : hB < 65536 := by rcases hBv with h | h <;> subst h <;> norm_num
  have idU : ∀ ts, applyData hU dU ts = ts := by
    intro ts
    unfold applyData
    rw [if_neg hU1, if_neg hU2]
  refine ⟨?_, idU, ?_⟩
  · rw [parse_extra_fields_encRecords [(hA, dA), (hU, dU), (hB, dB)]
      (by intro r hr
          simp only [List.mem_cons, List.mem_singleton] at hr
          rcases hr with h | h | h | h
          · subst h; exact ⟨hA65, hdA⟩
          · subst h; exact ⟨hU65, hdU⟩
          · subst h; exact ⟨hB65, hdB⟩
          · cases h),
      parse_extra_fields_encRecords [(hA, dA), (hB, dB)]
      (by intro r hr
          simp only [List.mem_cons, List.mem_singleton] at hr
          rcases hr with h | h | h
          · subst h; exact ⟨hA65, hdA⟩
          · subst h; exact ⟨hB65, hdB⟩
          · cases h)]
    simp only [List.foldl_cons, List.foldl_nil]
    rw [idU]
  · have wA : (if hA = 0x000a then ([] : List ℕ)
        else if hA = 0x5455 then [] else [hA]) = [] := by
      rcases hAv with h | h <;> simp [h]
    have wB : (if hB = 0x000a then ([] : List ℕ)
        else if hB = 0x5455 then [] else [hB]) = [] := by
      rcases hBv with h | h <;> simp [h]
    have wU : (if hU = 0x000a then ([] : List ℕ)
        else if hU = 0x5455 then [] else [hU]) = [hU] := by
      rw [if_neg hU1, if_neg hU2]
    show parseWarnings (encRecord hA dA ++ (encRecord hU dU ++
      (encRecord hB dB ++ []))) = [hU]
    rw [parseWarnings_cons hA dA _ hA65 hdA, wA,
      parseWarnings_cons hU dU _ hU65 hdU, wU,
      parseWarnings_cons hB dB _ hB65 hdB, wB]
    rfl

/-- Instance of C8: an unknown-header record (id 0x6666) between two
extended-timestamp records changes neither the parse result nor adds more
than its own diagnostic entry. -/
theorem claim_C8_witness :
    parse_extra_fields (encRecords
      [(0x5455, [1, 100, 0, 0, 0]), (0x6666, [1, 2, 3]),
       (0x5455, [2, 44, 0, 0, 0])]) =
      parse_extra_fields (encRecords
        [(0x5455, [1, 100, 0, 0, 0]), (0x5455, [2, 44, 0, 0, 0])]) ∧
    parseWarnings (encRecords
      [(0x5455, [1, 100, 0, 0, 0]), (0x6666, [1, 2, 3]),
       (0x5455, [2, 44, 0, 0, 0])]) = [0x6666] := by
  have h := claim_C8 0x5455 0x6666 0x5455 [1, 100, 0, 0, 0] [1, 2, 3]
    [2, 44, 0, 0, 0] (Or.inr rfl) (Or.inr rfl) (by norm_num) (by norm_num)
    (by norm_num) (by norm_num) (by norm_num) (by norm_num)
  exact ⟨h.1, h.2.2⟩

/-- C9: `set_file_time` catches every failure of its body (legacy
conversion, parsing, utime, creation-time setting), logs a warning naming
the path and the cause, and returns normally. -/
theorem claim_C9 (path : String) (legacy : Except String ℚ)
    (utime : ℚ → ℚ → Except String Unit) (setCreate : ℚ → Except String Unit)
    (isWindows : Bool) (extra : List ℕ) :
    (set_file_time_body legacy utime setCreate isWindows extra = Except.ok () →
      set_file_time_model path legacy utime setCreate isWindows extra = none) ∧
    (∀ e, set_file_time_body legacy utime setCreate isWindows extra =
        Except.error e →
      set_file_time_model path legacy utime setCreate isWindows extra =
        some ("Could not set time for " ++ path ++ ": " ++ e)) := by
  constructor
  · intro h
    unfold set_file_time_model
    rw [h]
  · intro e h
    unfold set_file_time_model
    rw [h]

/-- Instance of C9: a failing legacy conversion is caught and logged, and
the model returns normally. -/
theorem claim_C9_witness :
    set_file_time_model "f" (Except.error "boom") (fun _ _ => Except.ok ())
      (fun _ => Except.ok ()) true [] =
      some ("Could not set time for " ++ "f" ++ ": " ++ "boom") :=
  (claim_C9 "f" (Except.error "boom") (fun _ _ => Except.ok ())
    (fun _ => Except.ok ()) true []).2 "boom" rfl

/-- C10: both loops terminate on every input: fuel equal to the buffer
length already computes the loop's limit, and any extra fuel changes
nothing, because every iteration advances the offset by at least 4 bytes. -/
theorem claim_C10 :
    (∀ (n : ℕ) (f : ByteReader) (extra : ℕ) (ts : TimestampSet),
      parseLoop n f (n + extra) 0 ts = parseExtraF n f ts) ∧
    (∀ (f : ByteReader) (ds dlen extra off : ℕ) (ts : TimestampSet),
      ntfsLoop f ds dlen (dlen + extra) off ts = ntfsLoop f ds dlen dlen off ts) := by
  constructor
  · intro n f extra ts
    exact parseLoop_fuel_add n f extra n 0 ts (by omega)
  · intro f ds dlen extra off ts
    exact ntfsLoop_fuel_add f ds dlen extra dlen off ts (by omega)
